import Mathlib

/-!
Verification development for the MaaPipeline JSONC formatter
(`MaaFormatter.ts`: `MaaLexer`, `MaaParser`, `MaaPipelineFormatter`).

The source is translated into executable Lean definitions:

* text is represented as `List Char` (one entry per Unicode scalar value;
  JavaScript strings are UTF-16 code unit sequences, so lengths differ on
  supplementary-plane characters and lone surrogates are not representable —
  no claim below depends on those corners);
* the sticky regular expressions of `MaaLexer.PATTERNS` are translated into
  dedicated matchers with the exact first-match / greedy / lazy semantics of
  the JavaScript patterns;
* the recursive functions (lexer loop, recursive-descent parser, formatter
  recursion) take an explicit fuel argument so that every definition is
  structurally recursive and computable by the kernel; the entry points pass
  enough fuel, and fuel exhaustion is a distinguished error (lexer/parser)
  or the empty string (formatter) that the theorems show is never reached
  where it matters;
* the `JsonNumber` value is stored by the source as `parseFloat(text)` and
  re-serialised with `JSON.stringify`; we model the composition
  `JSON.stringify ∘ parseFloat` as the decimal canonicalisation function
  `canonNumber`, which follows the ECMAScript `Number::toString` layout on
  the exact decimal value of the literal.  This is exact whenever the
  literal's decimal value is exactly representable; behaviour that depends
  on IEEE-754 rounding or overflow (`1e999` becomes `Infinity`, which
  `JSON.stringify` turns into `null`) is outside the model, and the one
  claim whose truth depends on it is reported as not statable.
-/

namespace Maa

/-- JavaScript line terminators (the characters *not* matched by `.`
in a regular expression without the `s` flag). -/
def isLineTerm (c : Char) : Bool :=
  c = '\n' || c = '\r' || c = '\u2028' || c = '\u2029'

/-- JavaScript whitespace (the class `\s`): tab, line feed, vertical tab,
form feed, carriage return, space, NBSP, Ogham space mark, the U+2000
to U+200A range, the two line separators, narrow NBSP, medium
mathematical space, ideographic space and BOM. -/
def isJsWs (c : Char) : Bool :=
  c = '\t' || c = '\n' || c = '\x0b' || c = '\x0c' || c = '\r' || c = ' ' ||
  c = '\u00a0' || c = '\u1680' || ('\u2000' ≤ c && c ≤ '\u200a') ||
  c = '\u2028' || c = '\u2029' || c = '\u202f' || c = '\u205f' ||
  c = '\u3000' || c = '\ufeff'

def isAsciiDigit (c : Char) : Bool := '0' ≤ c && c ≤ '9'

/-- Number of `\n` characters in a string — the source updates its line
counter with `(value.match (of newline)).length`. -/
def countNL (cs : List Char) : Nat := cs.countP (fun c => c = '\n')

/-- `n` concatenated copies of a string (JavaScript `String.prototype.repeat`). -/
def repList (n : Nat) (cs : List Char) : List Char :=
  match n with
  | 0 => []
  | Nat.succ m => cs ++ repList m cs

/-- `formatted.replace(matching optional CR then LF, newline)`: rewrite every
line feed, together with an immediately preceding carriage return if there
is one, to the configured line terminator.  A carriage return not followed
by a line feed is left alone, exactly as with the source's global regex. -/
def replaceNL (nl : List Char) : List Char → List Char
  | [] => []
  | '\r' :: '\n' :: rest => nl ++ replaceNL nl rest
  | '\n' :: rest => nl ++ replaceNL nl rest
  | c :: rest => c :: replaceNL nl rest

/-- `String.prototype.trimEnd`: drop trailing JavaScript whitespace. -/
def trimEnd (cs : List Char) : List Char :=
  (cs.reverse.dropWhile isJsWs).reverse

-- ===========================================================================
-- Configuration (`MaaFormatConfig`, `DEFAULT_CONFIG`)
-- ===========================================================================

inductive IndentStyle where
  | space
  | tab
deriving DecidableEq, Repr

inductive NewlineStyle where
  | LF
  | CRLF
deriving DecidableEq, Repr

structure MaaFormatConfig where
  indent_style : IndentStyle
  indent_width : Nat
  insert_final_newline : Bool
  simple_array_threshold : Nat
  coordinate_fields : List (List Char)
  control_flow_fields : List (List Char)
  always_multiline_fields : List (List Char)
  preserve_comments : Bool
  output_suffix : List Char
  encoding : List Char
  newline : NewlineStyle

def DEFAULT_CONFIG : MaaFormatConfig where
  indent_style := IndentStyle.tab
  indent_width := 1
  insert_final_newline := false
  simple_array_threshold := 50
  coordinate_fields :=
    [ "roi".toList, "roi_offset".toList, "target".toList,
      "target_offset".toList, "begin".toList, "begin_offset".toList,
      "end".toList, "end_offset".toList, "lower".toList, "upper".toList ]
  control_flow_fields :=
    [ "next".toList, "interrupt".toList, "on_error".toList, "template".toList ]
  always_multiline_fields :=
    [ "custom_action_param".toList, "custom_param".toList,
      "parameters".toList, "params".toList, "options".toList,
      "config".toList ]
  preserve_comments := true
  output_suffix := []
  encoding := "utf-8".toList
  newline := NewlineStyle.LF

/-- The output line terminator selected by the configuration. -/
def nlOf (cfg : MaaFormatConfig) : List Char :=
  match cfg.newline with
  | NewlineStyle.CRLF => ['\r', '\n']
  | NewlineStyle.LF => ['\n']

/-- `indentChar.repeat(config.indent.width)` from the formatter constructor. -/
def indentStr (cfg : MaaFormatConfig) : List Char :=
  repList cfg.indent_width
    [(match cfg.indent_style with | IndentStyle.tab => '\t' | IndentStyle.space => ' ')]

-- ===========================================================================
-- Lexer (`TokenType`, `Token`, `MaaLexer`)
-- ===========================================================================

inductive TokenType where
  | LBRACE
  | RBRACE
  | LBRACKET
  | RBRACKET
  | COLON
  | COMMA
  | STRING
  | NUMBER
  | BOOLEAN
  | NULL
  | COMMENT
  | WHITESPACE
deriving DecidableEq, Repr

structure Token where
  type : TokenType
  value : List Char
  line : Nat
deriving DecidableEq, Repr

/-- Scan for the first `*/` and return everything up to and including it,
together with the remainder — the lazy part of the block-comment pattern. -/
def scanBlock : List Char → Option (List Char × List Char)
  | '*' :: '/' :: rest => some (['*', '/'], rest)
  | c :: rest =>
    match scanBlock rest with
    | some (v, r) => some (c :: v, r)
    | none => none
  | [] => none

/-- The comment pattern: a line comment `//` followed by every character up
to the next line terminator, or a lazily matched block comment. -/
def matchComment : List Char → Option (List Char × List Char)
  | '/' :: '/' :: rest =>
    some ('/' :: '/' :: rest.takeWhile (fun c => !isLineTerm c),
          rest.dropWhile (fun c => !isLineTerm c))
  | '/' :: '*' :: rest =>
    match scanBlock rest with
    | some (v, r) => some ('/' :: '*' :: v, r)
    | none => none
  | _ => none

/-- The body of the string pattern after the opening quote: a greedy star of
(backslash followed by any non-line-terminator | any non-quote), with the
backtracking preference of the JavaScript engine, then the closing quote.
Returns the consumed body (without the quotes) and the rest after the
closing quote. -/
def strTail : List Char → Option (List Char × List Char)
  | [] => none
  | c :: rest =>
    if c = '"' then
      some ([], rest)
    else
      -- the any-non-quote alternative: consume one character and go on
      let alt2 := (strTail rest).map (fun p => (c :: p.1, p.2))
      if c = '\\' then
        match rest with
        | d :: rest2 =>
          if isLineTerm d then
            -- the escape alternative cannot match a line terminator,
            -- so the backslash is consumed by the any-non-quote alternative
            alt2
          else
            match strTail rest2 with
            | some p => some (c :: d :: p.1, p.2)
            | none => alt2
        | [] => alt2
      else
        alt2

/-- The string pattern: quote, body, quote. -/
def matchString : List Char → Option (List Char × List Char)
  | '"' :: rest =>
    match strTail rest with
    | some (body, r) => some ('"' :: body ++ ['"'], r)
    | none => none
  | _ => none

/-- The mandatory integer part of the number pattern: `0`, or a nonzero
digit followed greedily by digits. -/
def numCore : List Char → Option (List Char × List Char)
  | [] => none
  | c :: rest =>
    if c = '0' then some (['0'], rest)
    else if isAsciiDigit c then
      some (c :: rest.takeWhile isAsciiDigit, rest.dropWhile isAsciiDigit)
    else none

/-- The optional fraction of the number pattern: a dot followed by at least
one digit, taken greedily when it can complete, skipped otherwise. -/
def numFrac : List Char → List Char × List Char
  | '.' :: rest =>
    if (rest.takeWhile isAsciiDigit) = [] then ([], '.' :: rest)
    else ('.' :: rest.takeWhile isAsciiDigit, rest.dropWhile isAsciiDigit)
  | cs0 => ([], cs0)

/-- The optional exponent of the number pattern: `e`/`E`, an optional sign,
then at least one digit, taken greedily when it can complete. -/
def numExp : List Char → List Char × List Char
  | e :: rest =>
    if e = 'e' || e = 'E' then
      match rest with
      | s :: rest2 =>
        if s = '+' || s = '-' then
          if (rest2.takeWhile isAsciiDigit) = [] then ([], e :: s :: rest2)
          else (e :: s :: rest2.takeWhile isAsciiDigit, rest2.dropWhile isAsciiDigit)
        else
          if (rest.takeWhile isAsciiDigit) = [] then ([], e :: rest)
          else (e :: rest.takeWhile isAsciiDigit, rest.dropWhile isAsciiDigit)
      | [] => ([], [e])
    else ([], e :: rest)
  | [] => ([], [])

/-- The number pattern: optional minus, `0` or a nonzero digit followed by
digits, an optional fraction (dot plus at least one digit) and an optional
exponent (`e`/`E`, optional sign, at least one digit), each optional part
taken greedily when it can complete. -/
def matchNumber (cs : List Char) : Option (List Char × List Char) :=
  match cs with
  | '-' :: rest =>
    match numCore rest with
    | some (i, r1) =>
      let f := numFrac r1
      let x := numExp f.2
      some ('-' :: i ++ f.1 ++ x.1, x.2)
    | none => none
  | _ =>
    match numCore cs with
    | some (i, r1) =>
      let f := numFrac r1
      let x := numExp f.2
      some (i ++ f.1 ++ x.1, x.2)
    | none => none

/-- The boolean pattern `true|false` (a prefix literal match). -/
def matchBoolean (cs : List Char) : Option (List Char × List Char) :=
  if cs.take 4 = "true".toList then some ("true".toList, cs.drop 4)
  else if cs.take 5 = "false".toList then some ("false".toList, cs.drop 5)
  else none

/-- The `null` pattern. -/
def matchNull (cs : List Char) : Option (List Char × List Char) :=
  if cs.take 4 = "null".toList then some ("null".toList, cs.drop 4)
  else none

/-- A single-character structural token. -/
def matchPunct (expected : Char) (cs : List Char) : Option (List Char × List Char) :=
  match cs with
  | c :: rest => if c = expected then some ([c], rest) else none
  | [] => none

/-- The whitespace pattern `\s+` (greedy, at least one character). -/
def matchWs (cs : List Char) : Option (List Char × List Char) :=
  match cs.takeWhile isJsWs with
  | [] => none
  | w => some (w, cs.dropWhile isJsWs)

/-- One step of `MaaLexer.tokenize`: try the patterns in the fixed priority
order of `MaaLexer.PATTERNS` and take the first match. -/
def lexStep (cs : List Char) : Option (TokenType × List Char × List Char) :=
  match matchComment cs with
  | some (v, r) => some (TokenType.COMMENT, v, r)
  | none =>
  match matchString cs with
  | some (v, r) => some (TokenType.STRING, v, r)
  | none =>
  match matchNumber cs with
  | some (v, r) => some (TokenType.NUMBER, v, r)
  | none =>
  match matchBoolean cs with
  | some (v, r) => some (TokenType.BOOLEAN, v, r)
  | none =>
  match matchNull cs with
  | some (v, r) => some (TokenType.NULL, v, r)
  | none =>
  match matchPunct '{' cs with
  | some (v, r) => some (TokenType.LBRACE, v, r)
  | none =>
  match matchPunct '}' cs with
  | some (v, r) => some (TokenType.RBRACE, v, r)
  | none =>
  match matchPunct '[' cs with
  | some (v, r) => some (TokenType.LBRACKET, v, r)
  | none =>
  match matchPunct ']' cs with
  | some (v, r) => some (TokenType.RBRACKET, v, r)
  | none =>
  match matchPunct ':' cs with
  | some (v, r) => some (TokenType.COLON, v, r)
  | none =>
  match matchPunct ',' cs with
  | some (v, r) => some (TokenType.COMMA, v, r)
  | none =>
  match matchWs cs with
  | some (v, r) => some (TokenType.WHITESPACE, v, r)
  | none => none

def lexErrMsg (line : Nat) (c : Char) : String :=
  "Unexpected character at line " ++ toString line ++ ": " ++ String.mk [c]

/-- Distinguished fuel-exhaustion error; the entry points always pass enough
fuel, so it is unreachable from them. -/
def fuelMsg : String := "INTERNAL: out of fuel"

/-- The lexer loop: while characters remain, take the first pattern match,
emit the token unless it is whitespace, and advance the line counter by the
number of line feeds in the matched text. -/
def tokenizeA : Nat → List Char → Nat → Except String (List Token)
  | 0, _, _ => Except.error fuelMsg
  | Nat.succ fuel, cs, line =>
    match cs with
    | [] => Except.ok []
    | c :: _ =>
      match lexStep cs with
      | none => Except.error (lexErrMsg line c)
      | some (ty, v, rest) =>
        match tokenizeA fuel rest (line + countNL v) with
        | Except.error e => Except.error e
        | Except.ok ts =>
          if ty = TokenType.WHITESPACE then Except.ok ts
          else Except.ok (Token.mk ty v line :: ts)

/-- `MaaLexer.tokenize` on a whole document (line numbers start at 1). -/
def tokenize (cs : List Char) : Except String (List Token) :=
  tokenizeA (cs.length + 1) cs 1

-- ===========================================================================
-- Scalar decoding (`JSON.parse` of string tokens) and number canonicalisation
-- ===========================================================================

def hexDigitVal (c : Char) : Option Nat :=
  let n := c.toNat
  if 48 ≤ n ∧ n ≤ 57 then some (n - 48)
  else if 97 ≤ n ∧ n ≤ 102 then some (n - 87)
  else if 65 ≤ n ∧ n ≤ 70 then some (n - 55)
  else none

/-- Decode the body of a JSON string literal with the strict `JSON.parse`
rules: only the escapes `\" \\ \/ \b \f \n \r \t \uXXXX` are legal, a raw
control character below U+0020 is an error, and the decoded text ends at the
closing quote, which must end the token.  A `\uXXXX` pair forming a
surrogate pair decodes to the combined scalar; JavaScript would keep a lone
surrogate as a UTF-16 code unit, which a `Char` cannot hold, so the model
maps a lone surrogate to U+FFFD (no claim depends on this corner). -/
def decodeBodyA : Nat → List Char → Option (List Char)
  | 0, _ => none
  | Nat.succ _, [] => none
  | Nat.succ fuel, c :: rest =>
    if c = '"' then
      if rest.isEmpty then some [] else none
    else if c = '\\' then
      match rest with
      | [] => none
      | e :: rest2 =>
        if e = '"' then (decodeBodyA fuel rest2).map (fun l => '"' :: l)
        else if e = '\\' then (decodeBodyA fuel rest2).map (fun l => '\\' :: l)
        else if e = '/' then (decodeBodyA fuel rest2).map (fun l => '/' :: l)
        else if e = 'b' then (decodeBodyA fuel rest2).map (fun l => '\x08' :: l)
        else if e = 'f' then (decodeBodyA fuel rest2).map (fun l => '\x0c' :: l)
        else if e = 'n' then (decodeBodyA fuel rest2).map (fun l => '\n' :: l)
        else if e = 'r' then (decodeBodyA fuel rest2).map (fun l => '\r' :: l)
        else if e = 't' then (decodeBodyA fuel rest2).map (fun l => '\t' :: l)
        else if e = 'u' then
          match rest2 with
          | h1 :: h2 :: h3 :: h4 :: rest3 =>
            match hexDigitVal h1, hexDigitVal h2, hexDigitVal h3, hexDigitVal h4 with
            | some a, some b, some c2, some d =>
              let n := ((a * 16 + b) * 16 + c2) * 16 + d
              if 0xD800 ≤ n ∧ n ≤ 0xDBFF then
                match rest3 with
                | '\\' :: 'u' :: g1 :: g2 :: g3 :: g4 :: rest4 =>
                  match hexDigitVal g1, hexDigitVal g2, hexDigitVal g3, hexDigitVal g4 with
                  | some a2, some b2, some c3, some d2 =>
                    let m := ((a2 * 16 + b2) * 16 + c3) * 16 + d2
                    if 0xDC00 ≤ m ∧ m ≤ 0xDFFF then
                      (decodeBodyA fuel rest4).map
                        (fun l => Char.ofNat (0x10000 + (n - 0xD800) * 0x400 + (m - 0xDC00)) :: l)
                    else
                      (decodeBodyA fuel rest3).map (fun l => '\uFFFD' :: l)
                  | _, _, _, _ => (decodeBodyA fuel rest3).map (fun l => '\uFFFD' :: l)
                | _ => (decodeBodyA fuel rest3).map (fun l => '\uFFFD' :: l)
              else if 0xDC00 ≤ n ∧ n ≤ 0xDFFF then
                (decodeBodyA fuel rest3).map (fun l => '\uFFFD' :: l)
              else
                (decodeBodyA fuel rest3).map (fun l => Char.ofNat n :: l)
            | _, _, _, _ => none
          | _ => none
        else none
    else if c.toNat < 0x20 then none
    else (decodeBodyA fuel rest).map (fun l => c :: l)

/-- `JSON.parse` on a whole string token (quotes included). -/
def jsonDecodeString (tok : List Char) : Option (List Char) :=
  match tok with
  | '"' :: body => decodeBodyA (body.length + 1) body
  | _ => none

def digitsToNat (ds : List Char) : Nat :=
  ds.foldl (fun acc c => acc * 10 + (c.toNat - '0'.toNat)) 0

def digitChar10 (n : Nat) : Char := Char.ofNat ('0'.toNat + n)

def natDigitsA : Nat → Nat → List Char
  | 0, _ => []
  | Nat.succ fuel, n =>
    if n < 10 then [digitChar10 n]
    else natDigitsA fuel (n / 10) ++ [digitChar10 (n % 10)]

/-- Decimal digit string of a natural number. -/
def natDigits (n : Nat) : List Char := natDigitsA (n + 1) n

/-- The optional leading minus: strip it, remembering the sign. -/
def numSign (cs : List Char) : Bool × List Char :=
  match cs with
  | '-' :: r => (true, r)
  | _ => (false, cs)

/-- Split an optional `.digits` fraction off the front. -/
def numFracSplit (cs2 : List Char) : List Char × List Char :=
  match cs2 with
  | '.' :: r => (r.takeWhile isAsciiDigit, r.dropWhile isAsciiDigit)
  | _ => ([], cs2)

/-- The signed value of an optional trailing exponent part. -/
def numExpVal (cs3 : List Char) : Int :=
  match cs3 with
  | e :: r =>
    if e = 'e' || e = 'E' then
      match r with
      | '-' :: d => - (digitsToNat d : Int)
      | '+' :: d => (digitsToNat d : Int)
      | d => (digitsToNat d : Int)
    else 0
  | [] => 0

/-- The ECMAScript `Number::toString` layout for the significant digits `D`
with decimal exponent `n1` (the value is `0.D × 10^n1`): plain digits with
trailing zeros, a pointed form, a leading-`0.` form, or the exponential
form, by the magnitude of `n1`. -/
def canonLayout (neg : Bool) (D : List Char) (n1 : Int) : List Char :=
  let k : Int := (D.length : Int)
  let sgn : List Char := if neg then ['-'] else []
  let body : List Char :=
    if k ≤ n1 ∧ n1 ≤ 21 then D ++ List.replicate (n1 - k).toNat '0'
    else if 0 < n1 ∧ n1 ≤ 21 then D.take n1.toNat ++ '.' :: D.drop n1.toNat
    else if -6 < n1 ∧ n1 ≤ 0 then '0' :: '.' :: (List.replicate (-n1).toNat '0' ++ D)
    else
      let mant : List Char :=
        match D with
        | [d] => [d]
        | d :: ds => d :: '.' :: ds
        | [] => []
      let e1 : Int := n1 - 1
      mant ++ 'e' :: (if e1 < 0 then '-' :: natDigits (-e1).toNat else '+' :: natDigits e1.toNat)
  sgn ++ body

/-- Model of `JSON.stringify (parseFloat text)` for a text accepted by the
number pattern: the exact decimal value of the literal laid out by the
ECMAScript `Number::toString` algorithm — parse the pieces, collect the
digits (`0.D × 10^n`), strip leading and trailing zeros, and lay out.
Exact for literals whose value survives the double round-trip unchanged;
double rounding and overflow are outside the model (see the header
note). -/
def canonNumber (cs : List Char) : List Char :=
  let sg := numSign cs
  let ip := sg.2.takeWhile isAsciiDigit
  let cs2 := sg.2.dropWhile isAsciiDigit
  let fq := numFracSplit cs2
  let ex := numExpVal fq.2
  let D0 := ip ++ fq.1
  let n0 : Int := (ip.length : Int) + ex
  let lead := D0.takeWhile (fun c => c = '0')
  let D1 := D0.dropWhile (fun c => c = '0')
  let n1 : Int := n0 - (lead.length : Int)
  let D := (D1.reverse.dropWhile (fun c => c = '0')).reverse
  if D = [] then ['0'] else canonLayout sg.1 D n1

-- ===========================================================================
-- AST (`JsonValue` and friends) and parser (`MaaParser`)
-- ===========================================================================

mutual
/-- The AST node variants: the four scalar leaves keep the decoded value and
the raw source slice, comments keep their literal text and block flag, and
the containers keep their interleaved children lists. -/
inductive Ast where
  | jstring (value : List Char) (raw : List Char)
  | jnumber (value : List Char) (raw : List Char)
  | jbool (value : Bool) (raw : List Char)
  | jnull (raw : List Char)
  | jcomment (text : List Char) (isBlock : Bool)
  | jarray (children : List Ast)
  | jobject (children : List ObjEntry)

/-- A child of a `JsonObject`: either a comment or a key/value pair. -/
inductive ObjEntry where
  | centry (text : List Char) (isBlock : Bool)
  | pentry (key : List Char) (value : Ast)
end

/-- `token.value.startsWith('/*')` — the block-comment flag. -/
def isBlockTok (v : List Char) : Bool := v.take 2 = ['/', '*']

/-- The numeric value of a `TokenType` as printed by a JavaScript template
string (the enum members are numbered in declaration order). -/
def tokenTypeNum : TokenType → Nat
  | TokenType.LBRACE => 0
  | TokenType.RBRACE => 1
  | TokenType.LBRACKET => 2
  | TokenType.RBRACKET => 3
  | TokenType.COLON => 4
  | TokenType.COMMA => 5
  | TokenType.STRING => 6
  | TokenType.NUMBER => 7
  | TokenType.BOOLEAN => 8
  | TokenType.NULL => 9
  | TokenType.COMMENT => 10
  | TokenType.WHITESPACE => 11

def expectedErr (expected : TokenType) (t : Token) : String :=
  "Expected token type " ++ toString (tokenTypeNum expected) ++ ", got " ++
    toString (tokenTypeNum t.type) ++ " at line " ++ toString t.line

/-- The object rule's loop (after the opening brace has been consumed):
close on `}`, collect comments, skip commas, and parse `key (comments) :
(comments) value` children; `pv` parses one value (it is `parseValueA` at
one fuel step less). -/
def parseObjLoopA (pv : List Token → Except String (Ast × List Token)) :
    Nat → List Token → Except String (List ObjEntry × List Token)
  | 0, _ => Except.error fuelMsg
  | Nat.succ fuel, ts =>
    match ts with
    | [] => Except.error "Unclosed object"
    | t :: rest =>
      match t.type with
      | TokenType.RBRACE => Except.ok ([], rest)
      | TokenType.COMMENT =>
        match parseObjLoopA pv fuel rest with
        | Except.ok (es, r) => Except.ok (ObjEntry.centry t.value (isBlockTok t.value) :: es, r)
        | Except.error e => Except.error e
      | TokenType.COMMA => parseObjLoopA pv fuel rest
      | TokenType.STRING =>
        match jsonDecodeString t.value with
        | none => Except.error "Invalid string literal"
        | some key =>
          let cs1 := rest.takeWhile (fun tk => tk.type = TokenType.COMMENT)
          let rest1 := rest.dropWhile (fun tk => tk.type = TokenType.COMMENT)
          match rest1 with
          | [] => Except.error "Unexpected end of input"
          | c :: rest2 =>
            if c.type = TokenType.COLON then
              let cs2 := rest2.takeWhile (fun tk => tk.type = TokenType.COMMENT)
              let rest3 := rest2.dropWhile (fun tk => tk.type = TokenType.COMMENT)
              match pv rest3 with
              | Except.error e => Except.error e
              | Except.ok (v, r4) =>
                match parseObjLoopA pv fuel r4 with
                | Except.error e => Except.error e
                | Except.ok (es, r5) =>
                  Except.ok
                    ((cs1 ++ cs2).map (fun tk => ObjEntry.centry tk.value (isBlockTok tk.value)) ++
                      (ObjEntry.pentry key v :: es), r5)
            else Except.error (expectedErr TokenType.COLON c)
      | _ =>
        Except.error ("Expected string key or comment in object, got " ++ String.mk t.value)

/-- The array rule's loop (after the opening bracket): close on `]`, collect
comments, skip commas, parse bare values. -/
def parseArrLoopA (pv : List Token → Except String (Ast × List Token)) :
    Nat → List Token → Except String (List Ast × List Token)
  | 0, _ => Except.error fuelMsg
  | Nat.succ fuel, ts =>
    match ts with
    | [] => Except.error "Unclosed array"
    | t :: rest =>
      match t.type with
      | TokenType.RBRACKET => Except.ok ([], rest)
      | TokenType.COMMENT =>
        match parseArrLoopA pv fuel rest with
        | Except.ok (cs, r) => Except.ok (Ast.jcomment t.value (isBlockTok t.value) :: cs, r)
        | Except.error e => Except.error e
      | TokenType.COMMA => parseArrLoopA pv fuel rest
      | _ =>
        match pv ts with
        | Except.error e => Except.error e
        | Except.ok (v, r1) =>
          match parseArrLoopA pv fuel r1 with
          | Except.error e => Except.error e
          | Except.ok (cs, r2) => Except.ok (v :: cs, r2)

/-- `MaaParser.parseValue`: decide the production from the next token. -/
def parseValueA : Nat → List Token → Except String (Ast × List Token)
  | 0, _ => Except.error fuelMsg
  | Nat.succ fuel, ts =>
    match ts with
    | [] => Except.error "Unexpected end of input"
    | t :: rest =>
      match t.type with
      | TokenType.LBRACE =>
        match parseObjLoopA (parseValueA fuel) fuel rest with
        | Except.ok (es, r) => Except.ok (Ast.jobject es, r)
        | Except.error e => Except.error e
      | TokenType.LBRACKET =>
        match parseArrLoopA (parseValueA fuel) fuel rest with
        | Except.ok (cs, r) => Except.ok (Ast.jarray cs, r)
        | Except.error e => Except.error e
      | TokenType.STRING =>
        match jsonDecodeString t.value with
        | some v => Except.ok (Ast.jstring v t.value, rest)
        | none => Except.error "Invalid string literal"
      | TokenType.NUMBER => Except.ok (Ast.jnumber (canonNumber t.value) t.value, rest)
      | TokenType.BOOLEAN => Except.ok (Ast.jbool (t.value = "true".toList) t.value, rest)
      | TokenType.NULL => Except.ok (Ast.jnull t.value, rest)
      | TokenType.COMMENT => Except.ok (Ast.jcomment t.value (isBlockTok t.value), rest)
      | _ =>
        Except.error ("Unexpected token " ++ String.mk t.value ++ " at line " ++ toString t.line)

/-- `MaaParser.parse` keeping the unconsumed suffix: strip the leading run
of comments, wrap a comment-only document in an empty object, and splice the
leading comments into a container root. -/
def parseRoot (ts : List Token) : Except String (Ast × List Token) :=
  let rootComments := ts.takeWhile (fun t => t.type = TokenType.COMMENT)
  let rest := ts.dropWhile (fun t => t.type = TokenType.COMMENT)
  match rest with
  | [] =>
    Except.ok
      (Ast.jobject (rootComments.map (fun t => ObjEntry.centry t.value (isBlockTok t.value))), [])
  | _ :: _ =>
    match parseValueA (rest.length + 1) rest with
    | Except.error e => Except.error e
    | Except.ok (root, r) =>
      match root with
      | Ast.jobject es =>
        Except.ok
          (Ast.jobject (rootComments.map (fun t => ObjEntry.centry t.value (isBlockTok t.value)) ++ es), r)
      | Ast.jarray cs =>
        Except.ok
          (Ast.jarray (rootComments.map (fun t => Ast.jcomment t.value (isBlockTok t.value)) ++ cs), r)
      | _ => Except.ok (root, r)

/-- `MaaParser.parse`: the unconsumed suffix of the token stream is
discarded (the parser's cursor is simply abandoned). -/
def parse (ts : List Token) : Except String Ast :=
  match parseRoot ts with
  | Except.ok (a, _) => Except.ok a
  | Except.error e => Except.error e

-- ===========================================================================
-- Formatter (`MaaPipelineFormatter`)
-- ===========================================================================

def hexDigitChar (n : Nat) : Char :=
  if n < 10 then Char.ofNat ('0'.toNat + n) else Char.ofNat ('a'.toNat + n - 10)

/-- `JSON.stringify` on one character of a string value: escape the quote,
the backslash and the control characters (named escapes for the usual five,
`\u00xx` for the rest), pass everything else through. -/
def jsonQuoteChar (c : Char) : List Char :=
  if c = '"' then ['\\', '"']
  else if c = '\\' then ['\\', '\\']
  else if c = '\x08' then ['\\', 'b']
  else if c = '\x0c' then ['\\', 'f']
  else if c = '\n' then ['\\', 'n']
  else if c = '\r' then ['\\', 'r']
  else if c = '\t' then ['\\', 't']
  else if c.toNat < 0x20 then
    ['\\', 'u', '0', '0', hexDigitChar (c.toNat / 16), hexDigitChar (c.toNat % 16)]
  else [c]

/-- `JSON.stringify` of a string value. -/
def jsonQuote (s : List Char) : List Char :=
  '"' :: s.flatMap jsonQuoteChar ++ ['"']

def isCommentN : Ast → Bool
  | Ast.jcomment _ _ => true
  | _ => false

def isObjectN : Ast → Bool
  | Ast.jobject _ => true
  | _ => false

def isArrayN : Ast → Bool
  | Ast.jarray _ => true
  | _ => false

def isNumberN : Ast → Bool
  | Ast.jnumber _ _ => true
  | _ => false

def isCommentE : ObjEntry → Bool
  | ObjEntry.centry _ _ => true
  | ObjEntry.pentry _ _ => false

/-- `valueIndices` / `lastValueIdx` of the array branch: indices of the
non-comment children, `-1` when there are none. -/
def lastValIdxN (children : List Ast) : Int :=
  let valueIndices :=
    ((children.mapIdx (fun i c => if isCommentN c then (-1 : Int) else (i : Int))).filter
      (fun i => i ≠ -1))
  match valueIndices.getLast? with
  | some i => i
  | none => -1

/-- `valueIndices` / `lastValueIdx` of the object branch. -/
def lastValIdxE (children : List ObjEntry) : Int :=
  let valueIndices :=
    ((children.mapIdx (fun i c => if isCommentE c then (-1 : Int) else (i : Int))).filter
      (fun i => i ≠ -1))
  match valueIndices.getLast? with
  | some i => i
  | none => -1

/-- `MaaPipelineFormatter.formatNode` (with the bodies of
`formatInlineArray`, `formatInlineObject`, `shouldInlineArray`,
`shouldInlineObject` and `isCoordinateArray` unfolded in place so that the
recursion is structural on the fuel; the named wrappers below restate them
and are proved to agree definitionally). -/
def formatNodeF (cfg : MaaFormatConfig) : Nat → Ast → Nat → List Char → Bool → List Char
  | 0, _, _, _, _ => []
  | Nat.succ fuel, node, level, parentKey, inlineMode =>
    match node with
    | Ast.jstring v _ => jsonQuote v
    | Ast.jnumber v _ => v
    | Ast.jbool b _ => if b then "true".toList else "false".toList
    | Ast.jnull _ => "null".toList
    | Ast.jcomment text _ => if inlineMode then [] else text
    | Ast.jarray children =>
      let inlineStr :=
        '[' :: List.intercalate (", ".toList)
          (children.map (fun c => formatNodeF cfg fuel c 0 [] true)) ++ [']']
      let expand :=
        let ind := repList (level + 1) (indentStr cfg)
        let lastValueIdx := lastValIdxN children
        let lines := children.mapIdx (fun i c =>
          let childStr := formatNodeF cfg fuel c (level + 1) [] false
          if isCommentN c then ind ++ childStr
          else
            ind ++ childStr ++
              (if i < children.length ∧ (i : Int) ≠ lastValueIdx then [','] else []))
        List.intercalate ['\n'] ([['[']] ++ lines ++ [repList level (indentStr cfg) ++ [']']])
      if inlineMode then inlineStr
      else
        let shouldInline :=
          if children.length = 0 then true
          else if children.any (fun c => isCommentN c || isObjectN c || isArrayN c) then false
          else if cfg.coordinate_fields.contains parentKey &&
              children.all (fun c => !isCommentN c && isNumberN c) then true
          else if cfg.control_flow_fields.contains parentKey then false
          else decide (inlineStr.length ≤ cfg.simple_array_threshold)
        if shouldInline then inlineStr else expand
    | Ast.jobject children =>
      let inlineStr :=
        '{' :: List.intercalate (", ".toList)
          (children.filterMap (fun e =>
            match e with
            | ObjEntry.centry _ _ => none
            | ObjEntry.pentry k v =>
              some (jsonQuote k ++ ": ".toList ++ formatNodeF cfg fuel v 0 [] true))) ++ ['}']
      let expand :=
        let ind := repList (level + 1) (indentStr cfg)
        let lastValueIdx := lastValIdxE children
        let lines := children.mapIdx (fun i e =>
          match e with
          | ObjEntry.centry text _ => ind ++ text
          | ObjEntry.pentry k v =>
            ind ++ jsonQuote k ++ ": ".toList ++ formatNodeF cfg fuel v (level + 1) k false ++
              (if i < children.length ∧ (i : Int) ≠ lastValueIdx then [','] else []))
        List.intercalate ['\n'] ([['{']] ++ lines ++ [repList level (indentStr cfg) ++ ['}']])
      if inlineMode then inlineStr
      else
        let shouldInline :=
          if children.length = 0 then true
          else if cfg.always_multiline_fields.contains parentKey then false
          else if children.any isCommentE then false
          else if children.any (fun e =>
              match e with
              | ObjEntry.centry _ _ => false
              | ObjEntry.pentry _ v => isObjectN v || isArrayN v) then false
          else decide (inlineStr.length ≤ cfg.simple_array_threshold)
        if shouldInline then inlineStr else expand

/-- `MaaPipelineFormatter.formatInlineArray` (children rendered in inline
mode at level 0 with an empty parent key, joined by `, `). -/
def formatInlineArray (cfg : MaaFormatConfig) (fuel : Nat) (children : List Ast) : List Char :=
  '[' :: List.intercalate (", ".toList)
    (children.map (fun c => formatNodeF cfg fuel c 0 [] true)) ++ [']']

/-- `MaaPipelineFormatter.formatInlineObject` (comment children skipped). -/
def formatInlineObject (cfg : MaaFormatConfig) (fuel : Nat) (children : List ObjEntry) : List Char :=
  '{' :: List.intercalate (", ".toList)
    (children.filterMap (fun e =>
      match e with
      | ObjEntry.centry _ _ => none
      | ObjEntry.pentry k v =>
        some (jsonQuote k ++ ": ".toList ++ formatNodeF cfg fuel v 0 [] true))) ++ ['}']

/-- `MaaPipelineFormatter.isCoordinateArray`: the key is a coordinate field
and every child is a number node (in particular no child is a comment). -/
def isCoordinateArray (cfg : MaaFormatConfig) (key : List Char) (children : List Ast) : Bool :=
  cfg.coordinate_fields.contains key &&
    children.all (fun c => !isCommentN c && isNumberN c)

/-- `MaaPipelineFormatter.shouldInlineArray`. -/
def shouldInlineArray (cfg : MaaFormatConfig) (fuel : Nat) (key : List Char)
    (children : List Ast) : Bool :=
  if children.length = 0 then true
  else if children.any (fun c => isCommentN c || isObjectN c || isArrayN c) then false
  else if isCoordinateArray cfg key children then true
  else if cfg.control_flow_fields.contains key then false
  else decide ((formatInlineArray cfg fuel children).length ≤ cfg.simple_array_threshold)

/-- `MaaPipelineFormatter.shouldInlineObject`. -/
def shouldInlineObject (cfg : MaaFormatConfig) (fuel : Nat) (key : List Char)
    (children : List ObjEntry) : Bool :=
  if children.length = 0 then true
  else if cfg.always_multiline_fields.contains key then false
  else if children.any isCommentE then false
  else if children.any (fun e =>
      match e with
      | ObjEntry.centry _ _ => false
      | ObjEntry.pentry _ v => isObjectN v || isArrayN v) then false
  else decide ((formatInlineObject cfg fuel children).length ≤ cfg.simple_array_threshold)

/-- The non-inline array branch of `formatNode` is exactly: inline when
`shouldInlineArray` says so, otherwise the expanded multi-line form. -/
theorem formatNodeF_array_eq (cfg : MaaFormatConfig) (fuel : Nat) (children : List Ast)
    (level : Nat) (parentKey : List Char) :
    formatNodeF cfg (fuel + 1) (Ast.jarray children) level parentKey false =
      if shouldInlineArray cfg fuel parentKey children then
        formatInlineArray cfg fuel children
      else
        List.intercalate ['\n']
          ([['[']] ++
            children.mapIdx (fun i c =>
              let childStr := formatNodeF cfg fuel c (level + 1) [] false
              if isCommentN c then repList (level + 1) (indentStr cfg) ++ childStr
              else
                repList (level + 1) (indentStr cfg) ++ childStr ++
                  (if i < children.length ∧ (i : Int) ≠ lastValIdxN children then [','] else [])) ++
            [repList level (indentStr cfg) ++ [']']]) := rfl

/-- The non-inline object branch of `formatNode` is exactly: inline when
`shouldInlineObject` says so, otherwise the expanded multi-line form. -/
theorem formatNodeF_object_eq (cfg : MaaFormatConfig) (fuel : Nat) (children : List ObjEntry)
    (level : Nat) (parentKey : List Char) :
    formatNodeF cfg (fuel + 1) (Ast.jobject children) level parentKey false =
      if shouldInlineObject cfg fuel parentKey children then
        formatInlineObject cfg fuel children
      else
        List.intercalate ['\n']
          ([['{']] ++
            children.mapIdx (fun i e =>
              match e with
              | ObjEntry.centry text _ => repList (level + 1) (indentStr cfg) ++ text
              | ObjEntry.pentry k v =>
                repList (level + 1) (indentStr cfg) ++ jsonQuote k ++ ": ".toList ++
                  formatNodeF cfg fuel v (level + 1) k false ++
                  (if i < children.length ∧ (i : Int) ≠ lastValIdxE children then [','] else [])) ++
            [repList level (indentStr cfg) ++ ['}']]) := rfl

/-- `formatted.endsWith(newline)`. -/
def endsWithNL (cs : List Char) : Bool :=
  match cs.getLast? with
  | some c => c = '\n'
  | none => false

/-- `MaaPipelineFormatter.format`: tokenize, parse, render from the root
with level 0 and an empty parent key, apply the final-newline policy, then
rewrite every line terminator to the configured style. -/
def format (cfg : MaaFormatConfig) (text : List Char) : Except String (List Char) :=
  match tokenize text with
  | Except.error e => Except.error e
  | Except.ok ts =>
    match parse ts with
    | Except.error e => Except.error e
    | Except.ok ast =>
      let formatted := formatNodeF cfg (ts.length + 1) ast 0 [] false
      let formatted :=
        if cfg.insert_final_newline then
          if formatted ≠ [] ∧ ¬ endsWithNL formatted then formatted ++ ['\n'] else formatted
        else
          if formatted ≠ [] ∧ endsWithNL formatted then trimEnd formatted else formatted
      Except.ok (replaceNL (nlOf cfg) formatted)

/-- `format` on a Lean string, for readable concrete statements. -/
def formatString (cfg : MaaFormatConfig) (s : String) : Except String String :=
  match format cfg s.toList with
  | Except.ok out => Except.ok (String.mk out)
  | Except.error e => Except.error e

-- ===========================================================================
-- The inline decisions as logical characterisations (shared lemmas)
-- ===========================================================================

/-- `shouldInlineArray` unfolded into the disjunction of its cases. -/
theorem shouldInlineArray_iff (cfg : MaaFormatConfig) (fuel : Nat) (key : List Char)
    (children : List Ast) :
    shouldInlineArray cfg fuel key children = true ↔
      children = [] ∨
        ((children.any fun c => isCommentN c || isObjectN c || isArrayN c) = false ∧
          (isCoordinateArray cfg key children = true ∨
            (cfg.control_flow_fields.contains key = false ∧
              (formatInlineArray cfg fuel children).length ≤ cfg.simple_array_threshold))) := by
  have hlen : children.length = 0 ↔ children = [] := List.length_eq_zero
  unfold shouldInlineArray
  split_ifs with h1 h2 h3 h4
  · simp only [true_iff]
    exact Or.inl (hlen.mp h1)
  · simp only [false_iff]
    rintro (rfl | ⟨hno, _⟩)
    · exact h1 rfl
    · exact absurd h2 (by simp [hno])
  · simp only [true_iff]
    exact Or.inr ⟨eq_false_of_ne_true h2, Or.inl h3⟩
  · simp only [false_iff]
    rintro (rfl | ⟨_, (hco | ⟨hcf, _⟩)⟩)
    · exact h1 rfl
    · exact h3 (by simpa using hco)
    · rw [hcf] at h4
      exact absurd h4 Bool.false_ne_true
  · simp only [decide_eq_true_eq]
    constructor
    · intro hle
      exact Or.inr ⟨eq_false_of_ne_true h2, Or.inr ⟨eq_false_of_ne_true h4, hle⟩⟩
    · rintro (rfl | ⟨_, (hco | ⟨_, hle⟩)⟩)
      · exact absurd rfl h1
      · exact absurd (by simpa using hco) h3
      · exact hle

/-- The predicate "some value of this object entry is a nested container". -/
def hasContainerValue : ObjEntry → Bool
  | ObjEntry.centry _ _ => false
  | ObjEntry.pentry _ v => isObjectN v || isArrayN v

/-- `shouldInlineObject` unfolded into the disjunction of its cases. -/
theorem shouldInlineObject_iff (cfg : MaaFormatConfig) (fuel : Nat) (key : List Char)
    (children : List ObjEntry) :
    shouldInlineObject cfg fuel key children = true ↔
      children = [] ∨
        (cfg.always_multiline_fields.contains key = false ∧
          children.any isCommentE = false ∧
          children.any hasContainerValue = false ∧
          (formatInlineObject cfg fuel children).length ≤ cfg.simple_array_threshold) := by
  have hlen : children.length = 0 ↔ children = [] := List.length_eq_zero
  have hcv : (children.any fun e =>
      match e with
      | ObjEntry.centry _ _ => false
      | ObjEntry.pentry _ v => isObjectN v || isArrayN v) = children.any hasContainerValue := by
    rfl
  unfold shouldInlineObject
  rw [hcv]
  split_ifs with h1 h2 h3 h4
  · simp only [true_iff]
    exact Or.inl (hlen.mp h1)
  · simp only [false_iff]
    rintro (rfl | ⟨ham, _⟩)
    · exact h1 rfl
    · rw [ham] at h2
      exact absurd h2 Bool.false_ne_true
  · simp only [false_iff]
    rintro (rfl | ⟨_, hcm, _⟩)
    · exact h1 rfl
    · rw [hcm] at h3
      exact absurd h3 Bool.false_ne_true
  · simp only [false_iff]
    rintro (rfl | ⟨_, _, hct, _⟩)
    · exact h1 rfl
    · rw [hct] at h4
      exact absurd h4 Bool.false_ne_true
  · simp only [decide_eq_true_eq]
    constructor
    · intro hle
      exact Or.inr ⟨eq_false_of_ne_true h2, eq_false_of_ne_true h3,
        eq_false_of_ne_true h4, hle⟩
    · rintro (rfl | ⟨_, _, _, hle⟩)
      · exact absurd rfl h1
      · exact hle

-- ===========================================================================
-- Claim C3: the array inline decision
-- ===========================================================================

/-- **C3.** For every configuration, fuel, key and array children list, the
layout engine inlines the array iff it is empty, or it has no
comment/object/array children and (it is a coordinate array — key in
`coordinate_fields` and every child a number — or its key is not a
control-flow field and its inline rendering fits the threshold);
consequently a non-empty array under a control-flow key that is not a
pure-numeric coordinate array is always expanded. -/
theorem claim_C3_array_inline_iff (cfg : MaaFormatConfig) (fuel : Nat) (key : List Char)
    (children : List Ast) :
    (shouldInlineArray cfg fuel key children = true ↔
      children = [] ∨
        ((children.any fun c => isCommentN c || isObjectN c || isArrayN c) = false ∧
          (isCoordinateArray cfg key children = true ∨
            (cfg.control_flow_fields.contains key = false ∧
              (formatInlineArray cfg fuel children).length ≤ cfg.simple_array_threshold)))) ∧
    (children ≠ [] → cfg.control_flow_fields.contains key = true →
      isCoordinateArray cfg key children = false →
      shouldInlineArray cfg fuel key children = false) := by
  refine ⟨shouldInlineArray_iff cfg fuel key children, fun hne hcf hco => ?_⟩
  cases h : shouldInlineArray cfg fuel key children with
  | false => rfl
  | true =>
    rcases (shouldInlineArray_iff cfg fuel key children).mp h with rfl | ⟨_, hcoord | ⟨hcf2, _⟩⟩
    · exact absurd rfl hne
    · rw [hco] at hcoord
      exact absurd hcoord Bool.false_ne_true
    · rw [hcf] at hcf2
      exact Bool.noConfusion hcf2

/-- Witness for C3: with the default configuration,
`"next": ["taskA", "taskB"]` is not inlined even though its inline form is
only 18 characters, well under the threshold of 50. -/
theorem claim_C3_witness :
    shouldInlineArray DEFAULT_CONFIG 5 "next".toList
      [Ast.jstring "taskA".toList "\"taskA\"".toList,
       Ast.jstring "taskB".toList "\"taskB\"".toList] = false ∧
    (formatInlineArray DEFAULT_CONFIG 5
      [Ast.jstring "taskA".toList "\"taskA\"".toList,
       Ast.jstring "taskB".toList "\"taskB\"".toList]).length = 18 := by
  refine ⟨?_, by decide⟩
  exact (claim_C3_array_inline_iff DEFAULT_CONFIG 5 "next".toList _).2
    (List.cons_ne_nil _ _) (by decide) (by decide)

-- ===========================================================================
-- Claim C4: the object inline decision
-- ===========================================================================

/-- **C4.** For every configuration, fuel, key and object children list, the
layout engine inlines the object iff it is empty, or its key is not an
always-multiline field, it has no comment children, none of its values is a
nested object or array, and its inline rendering fits the threshold; in
particular, with the default configuration `{"params": {"a": 1}}` renders
with `params` expanded even though its inline form (8 characters) is far
under the threshold. -/
theorem claim_C4_object_inline_iff (cfg : MaaFormatConfig) (fuel : Nat) (key : List Char)
    (children : List ObjEntry) :
    (shouldInlineObject cfg fuel key children = true ↔
      children = [] ∨
        (cfg.always_multiline_fields.contains key = false ∧
          children.any isCommentE = false ∧
          children.any hasContainerValue = false ∧
          (formatInlineObject cfg fuel children).length ≤ cfg.simple_array_threshold)) ∧
    formatString DEFAULT_CONFIG "\x7b\"params\": \x7b\"a\": 1\x7d\x7d" =
      Except.ok "\x7b\n\t\"params\": \x7b\n\t\t\"a\": 1\n\t\x7d\n\x7d" ∧
    (formatInlineObject DEFAULT_CONFIG 1
        [ObjEntry.pentry "a".toList (Ast.jnumber "1".toList "1".toList)]).length ≤
      DEFAULT_CONFIG.simple_array_threshold ∧
    shouldInlineObject DEFAULT_CONFIG 1 "params".toList
        [ObjEntry.pentry "a".toList (Ast.jnumber "1".toList "1".toList)] = false := by
  exact ⟨shouldInlineObject_iff cfg fuel key children, by rfl, by decide, by decide⟩

-- ===========================================================================
-- Claim C5: the threshold boundary is a less-than-or-equal comparison
-- ===========================================================================

/-- **C5.** When every other inlining condition holds, an array or object
whose inline rendering is exactly `simple_array_threshold` characters long
stays inline, and one that is one character longer expands. -/
theorem claim_C5_threshold_boundary (cfg : MaaFormatConfig) (fuel : Nat) (key : List Char)
    (children : List Ast) (entries : List ObjEntry) :
    (children ≠ [] →
      (children.any fun c => isCommentN c || isObjectN c || isArrayN c) = false →
      isCoordinateArray cfg key children = false →
      cfg.control_flow_fields.contains key = false →
      (((formatInlineArray cfg fuel children).length = cfg.simple_array_threshold →
          shouldInlineArray cfg fuel key children = true) ∧
        ((formatInlineArray cfg fuel children).length = cfg.simple_array_threshold + 1 →
          shouldInlineArray cfg fuel key children = false))) ∧
    (entries ≠ [] →
      cfg.always_multiline_fields.contains key = false →
      entries.any isCommentE = false →
      entries.any hasContainerValue = false →
      (((formatInlineObject cfg fuel entries).length = cfg.simple_array_threshold →
          shouldInlineObject cfg fuel key entries = true) ∧
        ((formatInlineObject cfg fuel entries).length = cfg.simple_array_threshold + 1 →
          shouldInlineObject cfg fuel key entries = false))) := by
  constructor
  · intro hne hnb hco hcf
    constructor
    · intro hlen
      exact (shouldInlineArray_iff cfg fuel key children).mpr
        (Or.inr ⟨hnb, Or.inr ⟨hcf, le_of_eq hlen⟩⟩)
    · intro hlen
      cases h : shouldInlineArray cfg fuel key children with
      | false => rfl
      | true =>
        rcases (shouldInlineArray_iff cfg fuel key children).mp h with
          rfl | ⟨_, hcoord | ⟨_, hle⟩⟩
        · exact absurd rfl hne
        · rw [hco] at hcoord
          exact Bool.noConfusion hcoord
        · omega
  · intro hne ham hcm hct
    constructor
    · intro hlen
      exact (shouldInlineObject_iff cfg fuel key entries).mpr
        (Or.inr ⟨ham, hcm, hct, le_of_eq hlen⟩)
    · intro hlen
      cases h : shouldInlineObject cfg fuel key entries with
      | false => rfl
      | true =>
        rcases (shouldInlineObject_iff cfg fuel key entries).mp h with
          rfl | ⟨_, _, _, hle⟩
        · exact absurd rfl hne
        · omega

/-- Witness for C5: with a threshold of 6, the array `[1, 2]` (inline form
exactly 6 characters) stays inline and the array `[1, 22]` (7 characters)
expands. -/
theorem claim_C5_witness :
    (shouldInlineArray { DEFAULT_CONFIG with simple_array_threshold := 6 } 3 "a".toList
        [Ast.jnumber "1".toList "1".toList, Ast.jnumber "2".toList "2".toList] = true) ∧
    (shouldInlineArray { DEFAULT_CONFIG with simple_array_threshold := 6 } 3 "a".toList
        [Ast.jnumber "1".toList "1".toList, Ast.jnumber "22".toList "22".toList] = false) := by
  constructor
  · exact ((claim_C5_threshold_boundary { DEFAULT_CONFIG with simple_array_threshold := 6 } 3
      "a".toList [Ast.jnumber "1".toList "1".toList, Ast.jnumber "2".toList "2".toList] []).1
      (List.cons_ne_nil _ _) (by decide) (by decide) (by decide)).1 (by decide)
  · exact ((claim_C5_threshold_boundary { DEFAULT_CONFIG with simple_array_threshold := 6 } 3
      "a".toList [Ast.jnumber "1".toList "1".toList, Ast.jnumber "22".toList "22".toList] []).1
      (List.cons_ne_nil _ _) (by decide) (by decide) (by decide)).2 (by decide)

-- ===========================================================================
-- Claim C9: unclosed containers
-- ===========================================================================

/-- **C9 counterexample.** The claim says the unclosed-container error
carries a message naming the container *and a line number*; in fact the
whole error message for `{"a": 1` is exactly `Unclosed object`, which
contains no digit at all, so no line number is reported. -/
theorem claim_C9_counterexample :
    formatString DEFAULT_CONFIG "\x7b\"a\": 1" = Except.error "Unclosed object" ∧
    (∀ c ∈ "Unclosed object".toList, isAsciiDigit c = false) := by
  exact ⟨by rfl, by decide⟩

/-- **C9 (amended).** When the token stream is exhausted before an opened
object or array is closed, the parser fails with the error `Unclosed
object` / `Unclosed array` naming the unclosed container (but with no line
number in the message), no partial AST is produced, and the whole format
operation aborts with that error and no output, for every configuration. -/
theorem claim_C9_unclosed_error (cfg : MaaFormatConfig)
    (pv : List Token → Except String (Ast × List Token)) (fuel : Nat) :
    parseObjLoopA pv (fuel + 1) [] = Except.error "Unclosed object" ∧
    parseArrLoopA pv (fuel + 1) [] = Except.error "Unclosed array" ∧
    format cfg "\x7b\"a\": 1".toList = Except.error "Unclosed object" ∧
    format cfg "[1".toList = Except.error "Unclosed array" :=
  ⟨rfl, rfl, rfl, rfl⟩

/-- Witness for C9 (amended): the statement instantiated at the default
configuration and the value parser at fuel 1. -/
theorem claim_C9_witness :
    format DEFAULT_CONFIG "\x7b\"a\": 1".toList = Except.error "Unclosed object" :=
  (claim_C9_unclosed_error DEFAULT_CONFIG (parseValueA 1) 0).2.2.1



/-- When `dropWhile` leaves something of `xs`, `takeWhile`/`dropWhile` of an
extended list stop inside `xs`. -/
theorem takeWhile_append_of_stop {α : Type} (p : α → Bool) (xs ys : List α)
    (h : xs.dropWhile p ≠ []) :
    (xs ++ ys).takeWhile p = xs.takeWhile p ∧
      (xs ++ ys).dropWhile p = xs.dropWhile p ++ ys := by
  induction xs with
  | nil => exact absurd rfl h
  | cons a xs ih =>
    cases hpa : p a with
    | true =>
      rw [List.dropWhile_cons_of_pos hpa] at h
      have := ih h
      simp only [List.cons_append, List.takeWhile_cons_of_pos hpa,
        List.dropWhile_cons_of_pos hpa, this.1, this.2, and_self]
    | false =>
      have hpa2 : ¬ p a = true := by simp [hpa]
      simp only [List.cons_append, List.takeWhile_cons_of_neg hpa2,
        List.dropWhile_cons_of_neg hpa2, and_self]

-- ===========================================================================
-- Parser locality: a successful parse is unchanged by appended tokens
-- ===========================================================================

/-- The object loop consumes only the tokens it needs: appending extra
tokens (with any extra fuel) leaves a successful result unchanged, the
extra tokens unconsumed.  `pv`/`pv'` are the value parsers used at the two
fuel levels. -/
theorem parseObjLoopA_grow (pv pv' : List Token → Except String (Ast × List Token))
    (ext : List Token) (k : Nat)
    (hpv : ∀ ts a r, pv ts = Except.ok (a, r) → pv' (ts ++ ext) = Except.ok (a, r ++ ext))
    (hpv0 : ∀ p, pv [] ≠ Except.ok p) :
    ∀ fuel ts es r, parseObjLoopA pv fuel ts = Except.ok (es, r) →
      parseObjLoopA pv' (fuel + k) (ts ++ ext) = Except.ok (es, r ++ ext) := by
  intro fuel
  induction fuel with
  | zero =>
    intro ts es r h
    exact absurd h (by simp [parseObjLoopA])
  | succ fuel ih =>
    intro ts es r h
    rw [Nat.succ_add]
    match ts with
    | [] => exact absurd h (by simp [parseObjLoopA])
    | t :: rest =>
      rw [List.cons_append]
      obtain ⟨ty, val, line⟩ := t
      simp only [parseObjLoopA] at h ⊢
      cases ty with
      | RBRACE =>
        simp only at h ⊢
        cases h
        rfl
      | COMMENT =>
        simp only at h ⊢
        cases hrec : parseObjLoopA pv fuel rest with
        | error e =>
          simp only [hrec] at h
          exact Except.noConfusion h
        | ok p =>
          obtain ⟨es1, r1⟩ := p
          simp only [hrec] at h
          simp only [ih rest es1 r1 hrec]
          injection h with hpair
          injection hpair with h1 h2
          rw [← h1, ← h2]
      | COMMA =>
        simp only at h ⊢
        exact ih rest es r h
      | STRING =>
        simp only at h ⊢
        cases hdec : jsonDecodeString val with
        | none =>
          simp only [hdec] at h
          exact Except.noConfusion h
        | some key =>
          simp only [hdec] at h ⊢
          cases hr1 : rest.dropWhile (fun tk => tk.type = TokenType.COMMENT) with
          | nil =>
            simp only [hr1] at h
            exact Except.noConfusion h
          | cons c rest2 =>
            have hstop := takeWhile_append_of_stop
              (fun tk => decide (tk.type = TokenType.COMMENT)) rest ext (by rw [hr1]; simp)
            have htw := hstop.1
            have hdw : (rest ++ ext).dropWhile (fun tk => decide (tk.type = TokenType.COMMENT)) =
                c :: (rest2 ++ ext) := by
              rw [hstop.2, hr1, List.cons_append]
            simp only [hr1] at h
            simp only [htw, hdw]
            by_cases hc : c.type = TokenType.COLON
            · rw [if_pos hc] at h ⊢
              cases hr3 : rest2.dropWhile (fun tk => tk.type = TokenType.COMMENT) with
              | nil =>
                rw [hr3] at h
                cases hpv2 : pv [] with
                | error e => rw [hpv2] at h; cases h
                | ok p => exact absurd hpv2 (hpv0 p)
              | cons d rest3 =>
                have hstop2 := takeWhile_append_of_stop
                  (fun tk => decide (tk.type = TokenType.COMMENT)) rest2 ext (by rw [hr3]; simp)
                have htw2 := hstop2.1
                have hdw2 : (rest2 ++ ext).dropWhile (fun tk => decide (tk.type = TokenType.COMMENT)) =
                    d :: (rest3 ++ ext) := by
                  rw [hstop2.2, hr3, List.cons_append]
                rw [hr3] at h
                simp only [htw2, hdw2]
                cases hv : pv (d :: rest3) with
                | error e =>
                  simp only [hv] at h
                  exact Except.noConfusion h
                | ok p =>
                  obtain ⟨v1, r4⟩ := p
                  simp only [hv] at h
                  have hv2 := hpv (d :: rest3) v1 r4 hv
                  rw [List.cons_append] at hv2
                  simp only [hv2]
                  cases hrec : parseObjLoopA pv fuel r4 with
                  | error e =>
                    simp only [hrec] at h
                    exact Except.noConfusion h
                  | ok q =>
                    obtain ⟨es5, r5⟩ := q
                    simp only [hrec] at h
                    simp only [ih r4 es5 r5 hrec]
                    injection h with hpair
                    injection hpair with h1 h2
                    rw [← h1, ← h2]
            · rw [if_neg hc] at h
              cases h
      | LBRACE =>
        simp only at h
        exact Except.noConfusion h
      | LBRACKET =>
        simp only at h
        exact Except.noConfusion h
      | RBRACKET =>
        simp only at h
        exact Except.noConfusion h
      | COLON =>
        simp only at h
        exact Except.noConfusion h
      | NUMBER =>
        simp only at h
        exact Except.noConfusion h
      | BOOLEAN =>
        simp only at h
        exact Except.noConfusion h
      | NULL =>
        simp only at h
        exact Except.noConfusion h
      | WHITESPACE =>
        simp only at h
        exact Except.noConfusion h


/-- The default branch of the array loop (parse one value, recurse), under
appended input and grown fuel. -/
theorem parseArrLoopA_grow_default (pv pv' : List Token → Except String (Ast × List Token))
    (ext : List Token) (k fuel : Nat)
    (hpv : ∀ ts a r, pv ts = Except.ok (a, r) → pv' (ts ++ ext) = Except.ok (a, r ++ ext))
    (ih : ∀ ts cs r, parseArrLoopA pv fuel ts = Except.ok (cs, r) →
      parseArrLoopA pv' (fuel + k) (ts ++ ext) = Except.ok (cs, r ++ ext))
    (ts0 : List Token) (cs : List Ast) (r : List Token)
    (h : (match pv ts0 with
          | Except.error e => Except.error e
          | Except.ok (v, r1) =>
            match parseArrLoopA pv fuel r1 with
            | Except.error e => Except.error e
            | Except.ok (cs2, r2) => Except.ok (v :: cs2, r2)) = Except.ok (cs, r)) :
    (match pv' (ts0 ++ ext) with
     | Except.error e => Except.error e
     | Except.ok (v, r1) =>
       match parseArrLoopA pv' (fuel + k) r1 with
       | Except.error e => Except.error e
       | Except.ok (cs2, r2) => Except.ok (v :: cs2, r2)) = Except.ok (cs, r ++ ext) := by
  cases hv : pv ts0 with
  | error e =>
    simp only [hv] at h
    exact Except.noConfusion h
  | ok p =>
    obtain ⟨v1, r1⟩ := p
    simp only [hv] at h
    simp only [hpv ts0 v1 r1 hv]
    cases hrec : parseArrLoopA pv fuel r1 with
    | error e =>
      simp only [hrec] at h
      exact Except.noConfusion h
    | ok q =>
      obtain ⟨cs2, r2⟩ := q
      simp only [hrec] at h
      simp only [ih r1 cs2 r2 hrec]
      injection h with hpair
      injection hpair with h1 h2
      rw [← h1, ← h2]

theorem parseArrLoopA_grow (pv pv' : List Token → Except String (Ast × List Token))
    (ext : List Token) (k : Nat)
    (hpv : ∀ ts a r, pv ts = Except.ok (a, r) → pv' (ts ++ ext) = Except.ok (a, r ++ ext)) :
    ∀ fuel ts cs r, parseArrLoopA pv fuel ts = Except.ok (cs, r) →
      parseArrLoopA pv' (fuel + k) (ts ++ ext) = Except.ok (cs, r ++ ext) := by
  intro fuel
  induction fuel with
  | zero =>
    intro ts cs r h
    exact absurd h (by simp [parseArrLoopA])
  | succ fuel ih =>
    intro ts cs r h
    rw [Nat.succ_add]
    match ts with
    | [] => exact absurd h (by simp [parseArrLoopA])
    | t :: rest =>
      rw [List.cons_append]
      obtain ⟨ty, val, line⟩ := t
      simp only [parseArrLoopA] at h ⊢
      cases ty
      case RBRACKET =>
        simp only at h ⊢
        cases h
        rfl
      case COMMENT =>
        simp only at h ⊢
        cases hrec : parseArrLoopA pv fuel rest with
        | error e =>
          simp only [hrec] at h
          exact Except.noConfusion h
        | ok p =>
          obtain ⟨cs1, r1⟩ := p
          simp only [hrec] at h
          simp only [ih rest cs1 r1 hrec]
          injection h with hpair
          injection hpair with h1 h2
          rw [← h1, ← h2]
      case COMMA =>
        simp only at h ⊢
        exact ih rest cs r h
      all_goals
        exact parseArrLoopA_grow_default pv pv' ext k fuel hpv ih _ cs r h


/-- The value parser never succeeds on an empty token stream. -/
theorem parseValueA_nil (fuel : Nat) (p : Ast × List Token) :
    parseValueA fuel [] ≠ Except.ok p := by
  cases fuel <;> simp [parseValueA]

/-- A successful value parse consumes only the tokens it needs: the result
is unchanged on appended input, with any amount of extra fuel. -/
theorem parseValueA_grow (ext : List Token) (k : Nat) :
    ∀ fuel ts a r, parseValueA fuel ts = Except.ok (a, r) →
      parseValueA (fuel + k) (ts ++ ext) = Except.ok (a, r ++ ext) := by
  intro fuel
  induction fuel with
  | zero =>
    intro ts a r h
    exact absurd h (by simp [parseValueA])
  | succ fuel ih =>
    intro ts a r h
    rw [Nat.succ_add]
    match ts with
    | [] => exact absurd h (by simp [parseValueA])
    | t :: rest =>
      rw [List.cons_append]
      obtain ⟨ty, val, line⟩ := t
      simp only [parseValueA] at h ⊢
      cases ty with
      | LBRACE =>
        simp only at h ⊢
        cases hrec : parseObjLoopA (parseValueA fuel) fuel rest with
        | error e =>
          simp only [hrec] at h
          exact Except.noConfusion h
        | ok p =>
          obtain ⟨es1, r1⟩ := p
          simp only [hrec] at h
          have := parseObjLoopA_grow (parseValueA fuel) (parseValueA (fuel + k)) ext k
            (fun ts a r hh => ih ts a r hh) (parseValueA_nil fuel) fuel rest es1 r1 hrec
          simp only [this]
          injection h with hpair
          injection hpair with h1 h2
          rw [← h1, ← h2]
      | LBRACKET =>
        simp only at h ⊢
        cases hrec : parseArrLoopA (parseValueA fuel) fuel rest with
        | error e =>
          simp only [hrec] at h
          exact Except.noConfusion h
        | ok p =>
          obtain ⟨cs1, r1⟩ := p
          simp only [hrec] at h
          have := parseArrLoopA_grow (parseValueA fuel) (parseValueA (fuel + k)) ext k
            (fun ts a r hh => ih ts a r hh) fuel rest cs1 r1 hrec
          simp only [this]
          injection h with hpair
          injection hpair with h1 h2
          rw [← h1, ← h2]
      | STRING =>
        simp only at h ⊢
        cases hdec : jsonDecodeString val with
        | none =>
          simp only [hdec] at h
          exact Except.noConfusion h
        | some v =>
          simp only [hdec] at h ⊢
          injection h with hpair
          injection hpair with h1 h2
          rw [← h1, ← h2]
      | NUMBER =>
        simp only at h ⊢
        injection h with hpair
        injection hpair with h1 h2
        rw [← h1, ← h2]
      | BOOLEAN =>
        simp only at h ⊢
        injection h with hpair
        injection hpair with h1 h2
        rw [← h1, ← h2]
      | NULL =>
        simp only at h ⊢
        injection h with hpair
        injection hpair with h1 h2
        rw [← h1, ← h2]
      | COMMENT =>
        simp only at h ⊢
        injection h with hpair
        injection hpair with h1 h2
        rw [← h1, ← h2]
      | RBRACE =>
        simp only at h
        exact Except.noConfusion h
      | RBRACKET =>
        simp only at h
        exact Except.noConfusion h
      | COLON =>
        simp only at h
        exact Except.noConfusion h
      | COMMA =>
        simp only at h
        exact Except.noConfusion h
      | WHITESPACE =>
        simp only at h
        exact Except.noConfusion h


-- ===========================================================================
-- Claim C10: trailing tokens after the root value are silently ignored
-- ===========================================================================

/-- **C10.** If the parser succeeds on a token stream `ts`, consuming all of
it (and the document does not consist of comments alone), then parsing `ts`
with any trailing tokens appended succeeds with the very same AST, the
trailing tokens being silently discarded; concretely, `{}{"b": 2}` and
`{} 1` both format to `{}` with no error. -/
theorem claim_C10_trailing_tokens_ignored :
    (∀ ts ext a, parseRoot ts = Except.ok (a, []) →
      ts.dropWhile (fun t => t.type = TokenType.COMMENT) ≠ [] →
      parse (ts ++ ext) = Except.ok a) ∧
    formatString DEFAULT_CONFIG "\x7b\x7d\x7b\"b\": 2\x7d" = Except.ok "\x7b\x7d" ∧
    formatString DEFAULT_CONFIG "\x7b\x7d 1" = Except.ok "\x7b\x7d" := by
  refine ⟨?_, by rfl, by rfl⟩
  intro ts ext a hok hne
  obtain ⟨c, restTs, hr⟩ := List.exists_cons_of_ne_nil hne
  have hstop := takeWhile_append_of_stop (fun t => decide (t.type = TokenType.COMMENT)) ts ext hne
  have htw := hstop.1
  have hdw : (ts ++ ext).dropWhile (fun t => decide (t.type = TokenType.COMMENT)) =
      c :: (restTs ++ ext) := by
    rw [hstop.2, hr, List.cons_append]
  simp only [parseRoot, hr] at hok
  cases hv : parseValueA ((c :: restTs).length + 1) (c :: restTs) with
  | error e =>
    rw [hv] at hok
    exact Except.noConfusion hok
  | ok p =>
    obtain ⟨root, r⟩ := p
    rw [hv] at hok
    have hgrow := parseValueA_grow ext ext.length ((c :: restTs).length + 1)
      (c :: restTs) root r hv
    rw [List.cons_append] at hgrow
    have hfuel : (c :: (restTs ++ ext)).length + 1 = ((c :: restTs).length + 1) + ext.length := by
      simp [List.length_append]
      omega
    have hroot : parseRoot (ts ++ ext) = Except.ok (a, r ++ ext) := by
      simp only [parseRoot, htw, hdw, hfuel, hgrow]
      cases root with
      | jobject es =>
        simp only at hok ⊢
        injection hok with hpair
        injection hpair with h1 h2
        rw [h1]
      | jarray cs =>
        simp only at hok ⊢
        injection hok with hpair
        injection hpair with h1 h2
        rw [h1]
      | jstring v raw =>
        simp only at hok ⊢
        injection hok with hpair
        injection hpair with h1 h2
        rw [h1]
      | jnumber v raw =>
        simp only at hok ⊢
        injection hok with hpair
        injection hpair with h1 h2
        rw [h1]
      | jbool v raw =>
        simp only at hok ⊢
        injection hok with hpair
        injection hpair with h1 h2
        rw [h1]
      | jnull raw =>
        simp only at hok ⊢
        injection hok with hpair
        injection hpair with h1 h2
        rw [h1]
      | jcomment t b =>
        simp only at hok ⊢
        injection hok with hpair
        injection hpair with h1 h2
        rw [h1]
    simp only [parse, hroot]


/-- Witness for C10: `{}` followed by a trailing number token parses to the
empty object, the trailing token ignored. -/
theorem claim_C10_witness :
    parse ([Token.mk TokenType.LBRACE ['{'] 1, Token.mk TokenType.RBRACE ['}'] 1] ++
      [Token.mk TokenType.NUMBER ['1'] 1]) = Except.ok (Ast.jobject []) :=
  claim_C10_trailing_tokens_ignored.1 _ _ _ (by rfl) (by decide)


-- ===========================================================================
-- Claim C8: the number pattern and the JSON number grammar
-- ===========================================================================


/-- All of `xs` satisfies `p` and `ys` does not start with a `p`-character,
so `takeWhile`/`dropWhile` split `xs ++ ys` exactly at the border. -/
theorem takeWhile_append_all {α : Type} (p : α → Bool) (xs ys : List α)
    (hall : ∀ c ∈ xs, p c = true)
    (hstop : ∀ c, ys.head? = some c → p c = false) :
    (xs ++ ys).takeWhile p = xs ∧ (xs ++ ys).dropWhile p = ys := by
  induction xs with
  | nil =>
    simp only [List.nil_append]
    cases ys with
    | nil => simp
    | cons b ys' =>
      have hb := hstop b rfl
      simp [List.takeWhile_cons, List.dropWhile_cons, hb]
  | cons a xs ih =>
    have ha : p a = true := hall a (by simp)
    have := ih (fun c hc => hall c (by simp [hc]))
    simp only [List.cons_append, List.takeWhile_cons_of_pos ha,
      List.dropWhile_cons_of_pos ha, this.1, this.2, and_self]

/-- Modelled from the spec: the integer part of the JSON number grammar —
`0`, or a nonzero digit followed by digits (no leading zero). -/
def isSpecInt (int : List Char) : Prop :=
  int = ['0'] ∨
    (∃ d ds, int = d :: ds ∧ isAsciiDigit d = true ∧ d ≠ '0' ∧
      ∀ c ∈ ds, isAsciiDigit c = true)

/-- Modelled from the spec: the optional fraction — empty, or a dot
followed by at least one digit. -/
def isSpecFrac (frac : List Char) : Prop :=
  frac = [] ∨
    (∃ ds, ds ≠ [] ∧ (∀ c ∈ ds, isAsciiDigit c = true) ∧ frac = '.' :: ds)

/-- Modelled from the spec: the optional exponent — empty, or `e`/`E`, an
optional sign and at least one digit. -/
def isSpecExp (ex : List Char) : Prop :=
  ex = [] ∨
    (∃ e sg ds, (e = 'e' ∨ e = 'E') ∧ (sg = [] ∨ sg = ['+'] ∨ sg = ['-']) ∧
      ds ≠ [] ∧ (∀ c ∈ ds, isAsciiDigit c = true) ∧ ex = e :: (sg ++ ds))

/-- Modelled from the spec: the full JSON number grammar — optional leading
minus, integer part with no leading zero (unless it is exactly `0`),
optional fraction, optional exponent. -/
def specJsonNumber (s : List Char) : Prop :=
  ∃ sign int frac ex, s = sign ++ int ++ frac ++ ex ∧
    (sign = [] ∨ sign = ['-']) ∧ isSpecInt int ∧ isSpecFrac frac ∧ isSpecExp ex

theorem numCore_sound (cs i r : List Char) (h : numCore cs = some (i, r)) :
    cs = i ++ r ∧ isSpecInt i := by
  match cs with
  | [] => exact absurd h (by simp [numCore])
  | c :: rest =>
    simp only [numCore] at h
    split_ifs at h with h0 hd
    · injection h with h1
      injection h1 with hi hr
      subst h0
      rw [← hi, ← hr]
      exact ⟨rfl, Or.inl rfl⟩
    · injection h with h1
      injection h1 with hi hr
      rw [← hi, ← hr]
      refine ⟨by simp [List.takeWhile_append_dropWhile], Or.inr ⟨c, rest.takeWhile isAsciiDigit, rfl, hd, h0, ?_⟩⟩
      intro x hx
      exact List.mem_takeWhile_imp hx

theorem numFrac_sound (cs f r : List Char) (h : numFrac cs = (f, r)) :
    cs = f ++ r ∧ isSpecFrac f := by
  unfold numFrac at h
  split at h
  next rest =>
    split_ifs at h with hd
    · injection h with h1 h2
      rw [← h1, ← h2]
      exact ⟨rfl, Or.inl rfl⟩
    · injection h with h1 h2
      rw [← h1, ← h2]
      constructor
      · simp [List.takeWhile_append_dropWhile]
      · exact Or.inr ⟨rest.takeWhile isAsciiDigit, hd,
          fun x hx => List.mem_takeWhile_imp hx, rfl⟩
  next cs0 hne =>
    injection h with h1 h2
    rw [← h1, ← h2]
    exact ⟨rfl, Or.inl rfl⟩

theorem numExp_sound (cs x r : List Char) (h : numExp cs = (x, r)) :
    cs = x ++ r ∧ isSpecExp x := by
  unfold numExp at h
  split at h
  next e rest =>
    by_cases he : (decide (e = 'e') || decide (e = 'E')) = true
    · rw [if_pos he] at h
      have he2 : e = 'e' ∨ e = 'E' := by
        rcases Bool.or_eq_true_iff.mp he with h2 | h2
        · exact Or.inl (of_decide_eq_true h2)
        · exact Or.inr (of_decide_eq_true h2)
      cases rest with
      | nil =>
        simp only at h
        injection h with h1 h2
        rw [← h1, ← h2]
        exact ⟨rfl, Or.inl rfl⟩
      | cons sg rest2 =>
        simp only at h
        by_cases hsg : (decide (sg = '+') || decide (sg = '-')) = true
        · rw [if_pos hsg] at h
          have hsg2 : sg = '+' ∨ sg = '-' := by
            rcases Bool.or_eq_true_iff.mp hsg with h2 | h2
            · exact Or.inl (of_decide_eq_true h2)
            · exact Or.inr (of_decide_eq_true h2)
          by_cases hd : rest2.takeWhile isAsciiDigit = []
          · rw [if_pos hd] at h
            injection h with h1 h2
            rw [← h1, ← h2]
            exact ⟨rfl, Or.inl rfl⟩
          · rw [if_neg hd] at h
            injection h with h1 h2
            rw [← h1, ← h2]
            constructor
            · simp [List.takeWhile_append_dropWhile]
            · refine Or.inr ⟨e, [sg], rest2.takeWhile isAsciiDigit, he2, ?_, hd,
                fun c hc => List.mem_takeWhile_imp hc, rfl⟩
              rcases hsg2 with rfl | rfl
              · exact Or.inr (Or.inl rfl)
              · exact Or.inr (Or.inr rfl)
        · rw [if_neg hsg] at h
          by_cases hd : (sg :: rest2).takeWhile isAsciiDigit = []
          · rw [if_pos hd] at h
            injection h with h1 h2
            rw [← h1, ← h2]
            exact ⟨rfl, Or.inl rfl⟩
          · rw [if_neg hd] at h
            injection h with h1 h2
            rw [← h1, ← h2]
            constructor
            · simp [List.takeWhile_append_dropWhile]
            · exact Or.inr ⟨e, [], (sg :: rest2).takeWhile isAsciiDigit, he2, Or.inl rfl, hd,
                fun c hc => List.mem_takeWhile_imp hc, rfl⟩
    · rw [if_neg he] at h
      injection h with h1 h2
      rw [← h1, ← h2]
      exact ⟨rfl, Or.inl rfl⟩
  next =>
    injection h with h1 h2
    rw [← h1, ← h2]
    exact ⟨rfl, Or.inl rfl⟩


theorem matchNumber_sound (cs v r : List Char) (h : matchNumber cs = some (v, r)) :
    cs = v ++ r ∧ specJsonNumber v := by
  unfold matchNumber at h
  split at h
  next rest =>
    cases hcore : numCore rest with
    | none =>
      simp only [hcore] at h
      exact Option.noConfusion h
    | some p =>
      obtain ⟨i, r1⟩ := p
      simp only [hcore] at h
      rcases hf : numFrac r1 with ⟨f1, f2⟩
      rcases hx : numExp f2 with ⟨x1, x2⟩
      simp only [hf] at h
      simp only [hx] at h
      injection h with hpair
      injection hpair with h1 h2
      obtain ⟨hc1, hc2⟩ := numCore_sound rest i r1 hcore
      obtain ⟨hf1, hf2⟩ := numFrac_sound r1 f1 f2 hf
      obtain ⟨hx1, hx2⟩ := numExp_sound f2 x1 x2 hx
      constructor
      · rw [← h1, ← h2, hc1, hf1, hx1]
        simp [List.append_assoc]
      · rw [← h1]
        exact ⟨['-'], i, f1, x1, by simp [List.append_assoc], Or.inr rfl, hc2, hf2, hx2⟩
  next hne =>
    cases hcore : numCore cs with
    | none =>
      simp only [hcore] at h
      exact Option.noConfusion h
    | some p =>
      obtain ⟨i, r1⟩ := p
      simp only [hcore] at h
      rcases hf : numFrac r1 with ⟨f1, f2⟩
      rcases hx : numExp f2 with ⟨x1, x2⟩
      simp only [hf] at h
      simp only [hx] at h
      injection h with hpair
      injection hpair with h1 h2
      obtain ⟨hc1, hc2⟩ := numCore_sound cs i r1 hcore
      obtain ⟨hf1, hf2⟩ := numFrac_sound r1 f1 f2 hf
      obtain ⟨hx1, hx2⟩ := numExp_sound f2 x1 x2 hx
      constructor
      · rw [← h1, ← h2, hc1, hf1, hx1]
        simp [List.append_assoc]
      · rw [← h1]
        exact ⟨[], i, f1, x1, by simp [List.append_assoc], Or.inl rfl, hc2, hf2, hx2⟩


/-- A digit is not a structural character (helper for completeness). -/
theorem digit_facts (c : Char) (h : isAsciiDigit c = true) :
    decide (c = '+') = false ∧ decide (c = '-') = false ∧ c ≠ '.' := by
  unfold isAsciiDigit at h
  rcases Bool.and_eq_true_iff.mp h with ⟨h1, h2⟩
  have h1' : '0' ≤ c := of_decide_eq_true h1
  refine ⟨?_, ?_, ?_⟩
  · rw [decide_eq_false_iff_not]
    intro hc; subst hc; revert h1'; decide
  · rw [decide_eq_false_iff_not]
    intro hc; subst hc; revert h1'; decide
  · intro hc; subst hc; revert h1'; decide

theorem numCore_complete (i r : List Char) (hint : isSpecInt i)
    (hr : ∀ c, r.head? = some c → isAsciiDigit c = false) :
    numCore (i ++ r) = some (i, r) := by
  rcases hint with rfl | ⟨d, ds, rfl, hd, hd0, hds⟩
  · simp [numCore]
  · have hsplit := takeWhile_append_all isAsciiDigit ds r hds hr
    simp only [List.cons_append, numCore, if_neg hd0, if_pos hd, hsplit.1, hsplit.2]

/-- `numFrac` on a string not starting with a dot is the skip case. -/
theorem numFrac_skip (cs : List Char) (h : cs.head? ≠ some '.') :
    numFrac cs = ([], cs) := by
  unfold numFrac
  split
  next rest => exact absurd rfl h
  next => rfl

theorem numFrac_complete (f r : List Char) (hf : isSpecFrac f)
    (hr : ∀ c, r.head? = some c → isAsciiDigit c = false)
    (hdot : f = [] → r.head? ≠ some '.') :
    numFrac (f ++ r) = (f, r) := by
  rcases hf with rfl | ⟨ds, hne, hds, rfl⟩
  · exact numFrac_skip r (hdot rfl)
  · have hsplit := takeWhile_append_all isAsciiDigit ds r hds hr
    have hne2 : (ds ++ r).takeWhile isAsciiDigit ≠ [] := by
      rw [hsplit.1]; exact hne
    simp only [List.cons_append, numFrac, if_neg hne2, hsplit.1, hsplit.2]
    rw [if_neg hne]

theorem numExp_complete (x : List Char) (hx : isSpecExp x) :
    numExp x = (x, []) := by
  rcases hx with rfl | ⟨e, sg, ds, he, hsg, hne, hds, rfl⟩
  · rfl
  · have he2 : (decide (e = 'e') || decide (e = 'E')) = true := by
      rcases he with rfl | rfl <;> simp
    obtain ⟨d0, ds', rfl⟩ := List.exists_cons_of_ne_nil hne
    have hsplit := takeWhile_append_all isAsciiDigit (d0 :: ds') [] hds (by simp)
    rw [List.append_nil] at hsplit
    have htake : (d0 :: ds').takeWhile isAsciiDigit = d0 :: ds' := hsplit.1
    have hdrop : (d0 :: ds').dropWhile isAsciiDigit = [] := hsplit.2
    rcases hsg with rfl | rfl | rfl
    · -- no sign: the character after `e` is the first digit
      have hd0 := digit_facts d0 (hds d0 (by simp))
      simp only [List.nil_append, numExp, if_pos he2]
      rw [if_neg (by rw [hd0.1, hd0.2.1]; simp)]
      rw [if_neg (by rw [htake]; simp)]
      rw [htake, hdrop]
    · -- `+` sign
      simp only [List.cons_append, List.nil_append, numExp, if_pos he2]
      rw [if_pos (by simp)]
      rw [if_neg (by rw [htake]; simp)]
      rw [htake, hdrop]
    · -- `-` sign
      simp only [List.cons_append, List.nil_append, numExp, if_pos he2]
      rw [if_pos (by simp)]
      rw [if_neg (by rw [htake]; simp)]
      rw [htake, hdrop]


/-- `matchNumber` on a string not starting with a minus takes the unsigned
branch. -/
theorem matchNumber_no_minus (cs : List Char) (h : cs.head? ≠ some '-') :
    matchNumber cs =
      match numCore cs with
      | some (i, r1) =>
        some (i ++ (numFrac r1).1 ++ (numExp (numFrac r1).2).1, (numExp (numFrac r1).2).2)
      | none => none := by
  unfold matchNumber
  split
  next rest => exact absurd rfl h
  next hne => rfl

theorem matchNumber_complete (s : List Char) (hs : specJsonNumber s) :
    matchNumber s = some (s, []) := by
  obtain ⟨sign, int, frac, ex, rfl, hsign, hint, hfrac, hex⟩ := hs
  -- the text after the integer part starts with a non-digit
  have hafter : ∀ c, (frac ++ ex).head? = some c → isAsciiDigit c = false := by
    intro c hc
    rcases hfrac with rfl | ⟨ds, hne, hds, rfl⟩
    · rcases hex with rfl | ⟨e, sg, ds', he, hsg, hne', hds', rfl⟩
      · simp at hc
      · simp only [List.nil_append, List.head?_cons] at hc
        injection hc with hc
        subst hc
        rcases he with rfl | rfl <;> decide
    · simp only [List.cons_append, List.head?_cons] at hc
      injection hc with hc
      subst hc
      decide
  have hexhead : ∀ c, ex.head? = some c → isAsciiDigit c = false := by
    intro c hc
    rcases hex with rfl | ⟨e, sg, ds', he, hsg, hne', hds', rfl⟩
    · simp at hc
    · simp only [List.head?_cons] at hc
      injection hc with hc
      subst hc
      rcases he with rfl | rfl <;> decide
  have hexdot : ex.head? ≠ some '.' := by
    rcases hex with rfl | ⟨e, sg, ds', he, hsg, hne', hds', rfl⟩
    · simp
    · simp only [List.head?_cons]
      intro hc
      injection hc with hc
      rcases he with rfl | rfl <;> exact absurd hc (by decide)
  have hcore : numCore (int ++ (frac ++ ex)) = some (int, frac ++ ex) :=
    numCore_complete int (frac ++ ex) hint hafter
  have hfr : numFrac (frac ++ ex) = (frac, ex) :=
    numFrac_complete frac ex hfrac hexhead (fun _ => hexdot)
  have hxp : numExp ex = (ex, []) := numExp_complete ex hex
  rcases hsign with rfl | rfl
  · have hhead : (([] : List Char) ++ int ++ frac ++ ex).head? ≠ some '-' := by
      simp only [List.nil_append]
      rcases hint with rfl | ⟨d, ds, rfl, hd, hd0, hds⟩
      · simp only [List.cons_append, List.head?_cons]
        intro hc; injection hc with hc; exact absurd hc (by decide)
      · simp only [List.cons_append, List.head?_cons]
        intro hc
        injection hc with hc
        subst hc
        exact absurd hd (by decide)
    rw [List.nil_append, List.append_assoc]
    rw [List.nil_append, List.append_assoc] at hhead
    rw [matchNumber_no_minus _ hhead, hcore]
    simp only [hfr, hxp]
    simp [List.append_assoc]
  · rw [List.append_assoc]
    have : ((['-'] ++ (int ++ (frac ++ ex))) : List Char) = '-' :: (int ++ (frac ++ ex)) := rfl
    rw [show ((['-'] ++ int) ++ (frac ++ ex) : List Char) = '-' :: (int ++ (frac ++ ex)) by simp]
    show matchNumber ('-' :: (int ++ (frac ++ ex))) = _
    unfold matchNumber
    simp only [hcore, hfr, hxp]
    simp [List.append_assoc]


/-- **C8.** The tokenizer's number pattern full-matches a string exactly
when it is in the JSON number grammar (optional leading minus, integer part
with no leading zero unless exactly `0`, optional fraction, optional
exponent); `01` and `+1` are not in the grammar, the pattern lexes `01`
only as the number `0` followed by the separate number `1` (never as one
numeric token), and tokenizing `+1` fails with a lexical error at the
`+`. -/
theorem claim_C8_number_grammar :
    (∀ s : List Char, matchNumber s = some (s, []) ↔ specJsonNumber s) ∧
    ¬ specJsonNumber "01".toList ∧
    ¬ specJsonNumber "+1".toList ∧
    matchNumber "01".toList = some (['0'], ['1']) ∧
    tokenize "+1".toList = Except.error (lexErrMsg 1 '+') ∧
    tokenize "01".toList =
      Except.ok [Token.mk TokenType.NUMBER ['0'] 1, Token.mk TokenType.NUMBER ['1'] 1] := by
  have hiff : ∀ s : List Char, matchNumber s = some (s, []) ↔ specJsonNumber s := by
    intro s
    constructor
    · intro h
      exact (matchNumber_sound s s [] h).2
    · exact matchNumber_complete s
  refine ⟨hiff, ?_, ?_, by rfl, by rfl, by rfl⟩
  · intro hs
    have h := matchNumber_complete _ hs
    rw [show matchNumber "01".toList = some (['0'], ['1']) from rfl] at h
    exact absurd h (by decide)
  · intro hs
    have h := matchNumber_complete _ hs
    rw [show matchNumber "+1".toList = none from rfl] at h
    exact Option.noConfusion h

/-- Witness for C8: the equivalence applied at the concrete literal
`-1.5e+7`, which the pattern full-matches. -/
theorem claim_C8_witness : specJsonNumber "-1.5e+7".toList :=
  (claim_C8_number_grammar.1 "-1.5e+7".toList).mp (by rfl)


-- ===========================================================================
-- Claim C6: comma placement in expanded containers
-- ===========================================================================


/-- The `lastValueIdx` computation of the expanded branches, generic in the
"is a comment" predicate (`isCommentN` for arrays, `isCommentE` for
objects). -/
def lastValIdxG {α : Type} (p : α → Bool) (children : List α) : Int :=
  let valueIndices :=
    ((children.mapIdx (fun i c => if p c then (-1 : Int) else (i : Int))).filter
      (fun i => i ≠ -1))
  match valueIndices.getLast? with
  | some i => i
  | none => -1

theorem lastValIdxN_eq (cs : List Ast) : lastValIdxN cs = lastValIdxG isCommentN cs := rfl

theorem lastValIdxE_eq (es : List ObjEntry) : lastValIdxE es = lastValIdxG isCommentE es := rfl

/-- The list of indices (starting at `n`) of the non-`p` elements. -/
def valueIdxG {α : Type} (p : α → Bool) (n : Nat) : List α → List Int
  | [] => []
  | c :: cs => (if p c then [] else [(n : Int)]) ++ valueIdxG p (n + 1) cs

theorem valueIdxG_eq_filter {α : Type} (p : α → Bool) :
    ∀ (cs : List α) (n : Nat),
      ((cs.mapIdx fun i c => if p c then (-1 : Int) else (((i + n : Nat) : Int))).filter
        (fun i => i ≠ -1)) = valueIdxG p n cs := by
  intro cs
  induction cs with
  | nil => intro n; rfl
  | cons c cs ih =>
    intro n
    rw [List.mapIdx_cons]
    have hfun : (fun i => (fun i c => if p c then (-1 : Int) else (((i + n : Nat) : Int))) (i + 1)) =
        (fun i c => if p c then (-1 : Int) else (((i + (n + 1) : Nat) : Int))) := by
      funext i c
      simp only
      congr 1
      omega
    rw [hfun]
    have hcond : ((0 + n : Nat) : Int) ≠ -1 := by omega
    cases hp : p c with
    | true =>
      rw [List.filter_cons]
      simpa [hp, valueIdxG] using ih (n + 1)
    | false =>
      rw [List.filter_cons]
      simpa [hp, hcond, valueIdxG] using ih (n + 1)

theorem valueIdxG_ge {α : Type} (p : α → Bool) :
    ∀ (cs : List α) (n : Nat) (k : Int), k ∈ valueIdxG p n cs → (n : Int) ≤ k := by
  intro cs
  induction cs with
  | nil => intro n k h; simp [valueIdxG] at h
  | cons c cs ih =>
    intro n k h
    simp only [valueIdxG, List.mem_append] at h
    rcases h with h | h
    · split at h
      · simp at h
      · simp only [List.mem_singleton] at h
        omega
    · have := ih (n + 1) k h
      omega

theorem valueIdxG_nil_iff {α : Type} (p : α → Bool) :
    ∀ (cs : List α) (n : Nat), valueIdxG p n cs = [] ↔ cs.all p = true := by
  intro cs
  induction cs with
  | nil => intro n; simp [valueIdxG]
  | cons c cs ih =>
    intro n
    cases hp : p c with
    | true => simp [valueIdxG, hp, ih (n + 1)]
    | false => simp [valueIdxG, hp]

theorem valueIdxG_mem {α : Type} (p : α → Bool) :
    ∀ (cs : List α) (n i : Nat) (c : α), cs.get? i = some c → p c = false →
      (((n + i : Nat) : Int)) ∈ valueIdxG p n cs := by
  intro cs
  induction cs with
  | nil => intro n i c h _; simp at h
  | cons x cs ih =>
    intro n i c h hp
    cases i with
    | zero =>
      simp only [List.get?_cons_zero, Option.some.injEq] at h
      subst h
      simp [valueIdxG, hp]
    | succ i =>
      simp only [List.get?_cons_succ] at h
      have := ih (n + 1) i c h hp
      simp only [valueIdxG, List.mem_append]
      right
      have harith : ((n + 1) + i : Nat) = (n + (i + 1) : Nat) := by omega
      rw [← harith]
      exact this

theorem valueIdxG_getLast {α : Type} (p : α → Bool) :
    ∀ (cs : List α) (n i : Nat) (c : α), cs.get? i = some c → p c = false →
      ((valueIdxG p n cs).getLast? = some (((n + i : Nat) : Int)) ↔
        (cs.drop (i + 1)).all p = true) := by
  intro cs
  induction cs with
  | nil => intro n i c h _; simp at h
  | cons x cs ih =>
    intro n i c h hp
    cases i with
    | zero =>
      simp only [List.get?_cons_zero, Option.some.injEq] at h
      subst h
      have hval : valueIdxG p n (x :: cs) = [(n : Int)] ++ valueIdxG p (n + 1) cs := by
        simp [valueIdxG, hp]
      rw [hval, List.getLast?_append, List.getLast?_singleton,
        show ((x :: cs).drop (0 + 1)) = cs from rfl,
        show ((n + 0 : Nat) : Int) = (n : Int) from rfl]
      cases hl : (valueIdxG p (n + 1) cs).getLast? with
      | none =>
        have hnil := List.getLast?_eq_none_iff.mp hl
        simp only [Option.none_or, Option.some.injEq]
        constructor
        · intro _
          exact (valueIdxG_nil_iff p cs (n + 1)).mp hnil
        · intro _
          trivial
      | some k =>
        have hkmem : k ∈ valueIdxG p (n + 1) cs := List.mem_of_mem_getLast? (by rw [hl]; rfl)
        have hk1 := valueIdxG_ge p cs (n + 1) k hkmem
        have hne : valueIdxG p (n + 1) cs ≠ [] := by
          intro hnil
          rw [hnil] at hl
          exact Option.noConfusion hl
        rw [show (Option.some k).or (some (n : Int)) = some k from rfl]
        simp only [Option.some.injEq]
        constructor
        · intro hk
          exfalso
          rw [hk] at hk1
          have : ((n + 1 : Nat) : Int) ≤ (n : Nat) := hk1
          omega
        · intro hall
          exact absurd ((valueIdxG_nil_iff p cs (n + 1)).mpr hall) hne
    | succ i =>
      simp only [List.get?_cons_succ] at h
      have hne : valueIdxG p (n + 1) cs ≠ [] := by
        intro hnil
        have := valueIdxG_mem p cs (n + 1) i c h hp
        rw [hnil] at this
        simp at this
      simp only [valueIdxG, List.drop_succ_cons]
      rw [List.getLast?_append]
      cases hl : (valueIdxG p (n + 1) cs).getLast? with
      | none =>
        exact absurd (List.getLast?_eq_none_iff.mp hl) hne
      | some k =>
        simp only [Option.or_some]
        have harith : ((n + 1) + i : Nat) = (n + (i + 1) : Nat) := by omega
        rw [← harith, ← hl]
        exact ih (n + 1) i c h hp


/-- A non-comment child is *not* the last value index exactly when some
later child is a non-comment (the "last value" determination skips comment
children). -/
theorem lastValIdxG_ne_iff {α : Type} (p : α → Bool) (cs : List α) (i : Nat) (c : α)
    (hget : cs.get? i = some c) (hp : p c = false) :
    (((i : Nat) : Int) ≠ lastValIdxG p cs ↔
      (cs.drop (i + 1)).any (fun x => !p x) = true) := by
  have hmem : ((0 + i : Nat) : Int) ∈ valueIdxG p 0 cs := valueIdxG_mem p cs 0 i c hget hp
  have hne : valueIdxG p 0 cs ≠ [] := by
    intro hnil
    rw [hnil] at hmem
    simp at hmem
  have hchar := valueIdxG_getLast p cs 0 i c hget hp
  have hval : lastValIdxG p cs =
      match (valueIdxG p 0 cs).getLast? with
      | some k => k
      | none => -1 := by
    unfold lastValIdxG
    have := valueIdxG_eq_filter p cs 0
    rw [show (fun (i : Nat) (c : α) => if p c then (-1 : Int) else ((i : Int))) =
        (fun (i : Nat) (c : α) => if p c then (-1 : Int) else (((i + 0 : Nat) : Int))) by
      funext i c
      simp]
    rw [this]
  cases hl : (valueIdxG p 0 cs).getLast? with
  | none => exact absurd (List.getLast?_eq_none_iff.mp hl) hne
  | some k =>
    rw [hval, hl]
    simp only
    rw [hl] at hchar
    constructor
    · intro hik
      by_contra hnotany
      have hall : (cs.drop (i + 1)).all p = true := by
        by_contra hnall
        rcases List.all_eq_false.mp (Bool.eq_false_iff.mpr hnall) with ⟨x, hxmem, hx⟩
        exact hnotany (List.any_eq_true.mpr ⟨x, hxmem, by simp [hx]⟩)
      have hsome := hchar.mpr hall
      injection hsome with hsome
      refine hik ?_
      rw [show ((i : Nat) : Int) = ((0 + i : Nat) : Int) by omega]
      exact hsome.symm
    · intro hany hik
      have hsome : some k = some ((0 + i : Nat) : Int) := by
        congr 1
        rw [show ((0 + i : Nat) : Int) = ((i : Nat) : Int) by omega]
        exact hik.symm
      have hall := hchar.mp hsome
      rcases List.any_eq_true.mp hany with ⟨x, hxmem, hx⟩
      have := List.all_eq_true.mp hall x hxmem
      rw [this] at hx
      simp at hx


/-- **C6.** An array or object that renders expanded emits each child on
its own line one indent level deeper; a value child gets a trailing comma
exactly when a later value child exists (the last-value determination skips
comment children), and comment children never get a trailing comma. -/
theorem claim_C6_comma_placement (cfg : MaaFormatConfig) (fuel level : Nat) (key : List Char)
    (children : List Ast) (entries : List ObjEntry) :
    (shouldInlineArray cfg fuel key children = false →
      formatNodeF cfg (fuel + 1) (Ast.jarray children) level key false =
        List.intercalate ['\n']
          ([['[']] ++
            children.mapIdx (fun i c =>
              repList (level + 1) (indentStr cfg) ++ formatNodeF cfg fuel c (level + 1) [] false ++
                (if isCommentN c then []
                 else if (children.drop (i + 1)).any (fun x => !isCommentN x) then [','] else [])) ++
            [repList level (indentStr cfg) ++ [']']])) ∧
    (shouldInlineObject cfg fuel key entries = false →
      formatNodeF cfg (fuel + 1) (Ast.jobject entries) level key false =
        List.intercalate ['\n']
          ([['{']] ++
            entries.mapIdx (fun i e =>
              match e with
              | ObjEntry.centry text _ => repList (level + 1) (indentStr cfg) ++ text
              | ObjEntry.pentry k v =>
                repList (level + 1) (indentStr cfg) ++ jsonQuote k ++ ": ".toList ++
                  formatNodeF cfg fuel v (level + 1) k false ++
                  (if (entries.drop (i + 1)).any (fun x => !isCommentE x) then [','] else [])) ++
            [repList level (indentStr cfg) ++ ['}']])) := by
  constructor
  · intro h
    rw [formatNodeF_array_eq]
    rw [if_neg (by rw [h]; exact Bool.false_ne_true)]
    congr 1
    congr 1
    congr 1
    rw [List.mapIdx_eq_enum_map, List.mapIdx_eq_enum_map]
    apply List.map_congr_left
    intro x hx
    obtain ⟨i, c⟩ := x
    have hget : children[i]? = some c := List.mem_enum_iff_getElem?.mp hx
    have hget2 : children.get? i = some c := by
      rw [List.get?_eq_getElem?]
      exact hget
    have hlt : i < children.length := by
      rcases List.getElem?_eq_some.mp hget with ⟨hl, _⟩
      exact hl
    simp only [Function.uncurry]
    cases hc : isCommentN c with
    | true => simp [hc]
    | false =>
      have hiff := lastValIdxG_ne_iff isCommentN children i c hget2 hc
      simp only [hc, Bool.false_eq_true, if_false]
      rw [lastValIdxN_eq]
      congr 1
      exact if_congr ⟨fun hh => hiff.mp hh.2, fun hany => ⟨hlt, hiff.mpr hany⟩⟩ rfl rfl
  · intro h
    rw [formatNodeF_object_eq]
    rw [if_neg (by rw [h]; exact Bool.false_ne_true)]
    congr 1
    congr 1
    congr 1
    rw [List.mapIdx_eq_enum_map, List.mapIdx_eq_enum_map]
    apply List.map_congr_left
    intro x hx
    obtain ⟨i, e⟩ := x
    have hget : entries[i]? = some e := List.mem_enum_iff_getElem?.mp hx
    have hget2 : entries.get? i = some e := by
      rw [List.get?_eq_getElem?]
      exact hget
    have hlt : i < entries.length := by
      rcases List.getElem?_eq_some.mp hget with ⟨hl, _⟩
      exact hl
    simp only [Function.uncurry]
    cases e with
    | centry text b => rfl
    | pentry k v =>
      have hc : isCommentE (ObjEntry.pentry k v) = false := rfl
      have hiff := lastValIdxG_ne_iff isCommentE entries i (ObjEntry.pentry k v) hget2 hc
      simp only
      rw [lastValIdxE_eq]
      congr 1
      exact if_congr ⟨fun hh => hiff.mp hh.2, fun hany => ⟨hlt, hiff.mpr hany⟩⟩ rfl rfl

/-- Witness for C6: a concrete expanded array — the value `1` gets a comma
(a later value exists), the comment and the final value do not. -/
theorem claim_C6_witness :
    formatNodeF DEFAULT_CONFIG 3 (Ast.jarray
        [Ast.jnumber "1".toList "1".toList, Ast.jcomment "// c".toList false,
         Ast.jnumber "2".toList "2".toList]) 0 "x".toList false =
      "[\n\t1,\n\t// c\n\t2\n]".toList := by
  have h := (claim_C6_comma_placement DEFAULT_CONFIG 2 0 "x".toList
    [Ast.jnumber "1".toList "1".toList, Ast.jcomment "// c".toList false,
     Ast.jnumber "2".toList "2".toList] []).1 (by decide)
  rw [h]
  rfl

end Maa

namespace Maa

/-- The characters that can appear in a canonicalised number. -/
def isNumChar (c : Char) : Bool :=
  isAsciiDigit c || c = '-' || c = '.' || c = 'e' || c = '+'

theorem digitChar10_digit (n : Nat) (h : n < 10) : isAsciiDigit (digitChar10 n) = true := by
  interval_cases n <;> decide

theorem natDigitsA_chars (fuel : Nat) : ∀ (n : Nat), ∀ c ∈ natDigitsA fuel n, isAsciiDigit c = true := by
  induction fuel with
  | zero => intro n c hc; simp [natDigitsA] at hc
  | succ fuel ih =>
    intro n c hc
    unfold natDigitsA at hc
    split_ifs at hc with h10
    · simp only [List.mem_singleton] at hc
      subst hc
      exact digitChar10_digit n h10
    · rcases List.mem_append.mp hc with hc | hc
      · exact ih (n / 10) c hc
      · simp only [List.mem_singleton] at hc
        subst hc
        exact digitChar10_digit (n % 10) (Nat.mod_lt n (by omega))

theorem natDigits_chars (n : Nat) : ∀ c ∈ natDigits n, isAsciiDigit c = true :=
  natDigitsA_chars (n + 1) n

theorem natDigits_ne_nil (n : Nat) : natDigits n ≠ [] := by
  unfold natDigits natDigitsA
  split_ifs <;> simp

theorem canonLayout_chars (neg : Bool) (D : List Char) (n1 : Int)
    (hD : ∀ c ∈ D, isAsciiDigit c = true) :
    ∀ c ∈ canonLayout neg D n1, isNumChar c = true := by
  intro c hc
  have hmant : ∀ x ∈ (match D with
      | [d] => [d]
      | d :: ds => d :: '.' :: ds
      | [] => ([] : List Char)), isAsciiDigit x = true ∨ x = '.' := by
    intro x hx
    split at hx
    · simp only [List.mem_singleton] at hx
      subst hx
      exact Or.inl (hD _ (by simp))
    next d ds _ =>
      rcases List.mem_cons.mp hx with rfl | hx
      · exact Or.inl (hD _ (by simp))
      · rcases List.mem_cons.mp hx with rfl | hx
        · exact Or.inr rfl
        · exact Or.inl (hD _ (by simp [hx]))
    · simp at hx
  unfold canonLayout at hc
  rcases List.mem_append.mp hc with hc | hc
  · -- the sign
    split at hc
    · simp only [List.mem_singleton] at hc
      subst hc
      rfl
    · simp at hc
  · split_ifs at hc with h1 h2 h3
    · rcases List.mem_append.mp hc with hc | hc
      · simp [isNumChar, hD c hc]
      · rw [List.eq_of_mem_replicate hc]
        rfl
    · rcases List.mem_append.mp hc with hc | hc
      · simp [isNumChar, hD c (List.mem_of_mem_take hc)]
      · rcases List.mem_cons.mp hc with rfl | hc
        · rfl
        · simp [isNumChar, hD c (List.mem_of_mem_drop hc)]
    · rcases List.mem_cons.mp hc with rfl | hc
      · rfl
      · rcases List.mem_cons.mp hc with rfl | hc
        · rfl
        · rcases List.mem_append.mp hc with hc | hc
          · rw [List.eq_of_mem_replicate hc]
            rfl
          · simp [isNumChar, hD c hc]
    · rcases List.mem_append.mp hc with hc | hc
      · rcases hmant c hc with h | rfl
        · simp [isNumChar, h]
        · rfl
      · rcases List.mem_cons.mp hc with rfl | hc
        · rfl
        · split at hc
          · rcases List.mem_cons.mp hc with rfl | hc
            · rfl
            · simp [isNumChar, natDigits_chars _ c hc]
          · rcases List.mem_cons.mp hc with rfl | hc
            · rfl
            · simp [isNumChar, natDigits_chars _ c hc]

theorem canonLayout_ne_nil (neg : Bool) (D : List Char) (n1 : Int) (hD : D ≠ []) :
    canonLayout neg D n1 ≠ [] := by
  unfold canonLayout
  intro h
  rcases List.append_eq_nil.mp h with ⟨_, hbody⟩
  revert hbody
  split_ifs with h1 h2 h3
  · simp [hD]
  · simp
  · simp
  · intro hb
    rcases List.append_eq_nil.mp hb with ⟨_, h2⟩
    exact List.cons_ne_nil _ _ h2

/-- Every character of a canonicalised number is a digit or one of
`- . e +`, and the canonicalisation is nonempty. -/
theorem canonNumber_chars (s : List Char) :
    (∀ c ∈ canonNumber s, isNumChar c = true) ∧ canonNumber s ≠ [] := by
  unfold canonNumber
  simp only
  split_ifs with hD
  · exact ⟨by intro c hc; simp only [List.mem_singleton] at hc; subst hc; rfl, by simp⟩
  · constructor
    · apply canonLayout_chars
      intro c hc
      rw [List.mem_reverse] at hc
      have h1 := (List.dropWhile_sublist _).subset hc
      rw [List.mem_reverse] at h1
      have h2 := (List.dropWhile_sublist _).subset h1
      rcases List.mem_append.mp h2 with h3 | h3
      · exact List.mem_takeWhile_imp h3
      · -- fraction digits
        revert h3
        unfold numFracSplit
        split
        · intro h3
          exact List.mem_takeWhile_imp h3
        · intro h3
          simp at h3
    · exact canonLayout_ne_nil _ _ _ hD

end Maa

namespace Maa

/-- Every line feed in the string is the second half of a `\r\n` pair. -/
def crlfOnly : List Char → Bool
  | [] => true
  | '\r' :: '\n' :: rest => crlfOnly rest
  | '\n' :: _ => false
  | _ :: rest => crlfOnly rest

/-- The CRLF rewrite never leaves output starting with a bare line feed. -/
theorem replaceNL_head_not_lf (s : List Char) :
    (replaceNL ['\r', '\n'] s).head? ≠ some '\n' := by
  unfold replaceNL
  split
  · simp
  · simp
  · simp
  next _ c rest h1 h2 =>
    simp only [List.head?_cons]
    intro hcc
    injection hcc with hcc
    exact h2 hcc

/-- The rewrite leaves an ordinary character in place. -/
theorem replaceNL_cons_generic (nl : List Char) (c : Char) (rest : List Char)
    (h2 : c ≠ '\n') (h1 : ¬(c = '\r' ∧ rest.head? = some '\n')) :
    replaceNL nl (c :: rest) = c :: replaceNL nl rest := by
  conv_lhs => unfold replaceNL
  split
  next heq => exact absurd heq (by simp)
  next r heq =>
    injection heq with hc hrest
    exact absurd ⟨hc, by rw [hrest]; rfl⟩ h1
  next r heq =>
    injection heq with hc _
    exact absurd hc h2
  next c2 r2 hh1 hh2 heq =>
    injection heq with hc hrest
    rw [← hc, ← hrest]

theorem crlfOnly_cons (c : Char) (X : List Char) (hc : c ≠ '\n') (h : X.head? ≠ some '\n') :
    crlfOnly (c :: X) = crlfOnly X := by
  conv_lhs => unfold crlfOnly
  split
  next heq => exact absurd heq (by simp)
  next r heq =>
    injection heq with hc1 hrest
    exact absurd (by rw [hrest]; rfl) h
  next r heq =>
    injection heq with hc1 _
    exact absurd hc1 hc
  next c2 r2 hh1 hh2 heq =>
    injection heq with hc1 hrest
    rw [← hrest]

/-- After the CRLF rewrite every line feed is preceded by a carriage
return. -/
theorem crlfOnly_replaceNL (s : List Char) : crlfOnly (replaceNL ['\r', '\n'] s) = true := by
  induction s using replaceNL.induct ['\r', '\n'] with
  | case1 => rfl
  | case2 rest ih =>
    rw [show replaceNL ['\r', '\n'] ('\r' :: '\n' :: rest) =
      '\r' :: '\n' :: replaceNL ['\r', '\n'] rest from rfl]
    rw [show crlfOnly ('\r' :: '\n' :: replaceNL ['\r', '\n'] rest) =
      crlfOnly (replaceNL ['\r', '\n'] rest) from rfl]
    exact ih
  | case3 rest ih =>
    rw [show replaceNL ['\r', '\n'] ('\n' :: rest) =
      '\r' :: '\n' :: replaceNL ['\r', '\n'] rest from rfl]
    rw [show crlfOnly ('\r' :: '\n' :: replaceNL ['\r', '\n'] rest) =
      crlfOnly (replaceNL ['\r', '\n'] rest) from rfl]
    exact ih
  | case4 c rest h1 h2 ih =>
    have hc : c ≠ '\n' := fun hh => h2 hh
    have hpair : ¬(c = '\r' ∧ rest.head? = some '\n') := by
      rintro ⟨rfl, hhd⟩
      cases rest with
      | nil => exact Option.noConfusion hhd
      | cons x xs =>
        injection hhd with hhd
        exact h1 xs rfl (by rw [hhd])
    rw [replaceNL_cons_generic _ c rest hc hpair]
    rw [crlfOnly_cons c _ hc (replaceNL_head_not_lf rest)]
    exact ih

-- ---------------------------------------------------------------------------
-- Shape of the rendered root: nonempty, and its last character is never a
-- line terminator (so the final-newline policy of `format` is decided the
-- same way on every successful render).

/-- Characters of a canonicalised number are never line terminators. -/
theorem isNumChar_not_term (c : Char) (h : isNumChar c = true) : c ≠ '\n' ∧ c ≠ '\r' := by
  constructor <;> intro hc <;> subst hc <;> exact absurd h (by decide)

/-- `getLast?` of a cons with a nonempty tail. -/
theorem getLast?_cons_ne {α : Type} (a : α) (l : List α) (h : l ≠ []) :
    (a :: l).getLast? = l.getLast? :=
  List.getLast?_append_of_ne_nil [a] h

/-- A list whose `getLast?` is `some` is nonempty. -/
theorem ne_nil_of_getLast {α : Type} (l : List α) (c : α) (h : l.getLast? = some c) :
    l ≠ [] := by
  intro hz
  rw [hz] at h
  exact Option.noConfusion h

/-- A nonempty list has a `some` last element. -/
theorem getLast?_some_of_ne_nil {α : Type} (l : List α) (h : l ≠ []) :
    ∃ c, l.getLast? = some c :=
  Option.isSome_iff_exists.mp (List.getLast?_isSome.mpr h)

/-- `intercalate` of a chunk list ending in a nonempty chunk ends with that
chunk. -/
theorem intercalate_getLast (sep : List Char) (xs : List (List Char)) (b : List Char)
    (hb : b ≠ []) : (List.intercalate sep (xs ++ [b])).getLast? = b.getLast? := by
  induction xs with
  | nil => simp [List.intercalate]
  | cons a xs ih =>
    have hne : List.intercalate sep (xs ++ [b]) ≠ [] := by
      intro hz
      rw [hz, List.getLast?_nil] at ih
      obtain ⟨c, hc⟩ := getLast?_some_of_ne_nil b hb
      rw [hc] at ih
      exact Option.noConfusion ih
    cases hxs : xs ++ [b] with
    | nil => exact absurd hxs (by simp)
    | cons y t =>
      rw [List.cons_append, hxs]
      rw [show List.intercalate sep (a :: y :: t) =
        a ++ (sep ++ List.intercalate sep (y :: t)) from by
          simp [List.intercalate, List.intersperse]]
      rw [← hxs]
      rw [List.getLast?_append_of_ne_nil a (by simp [hne])]
      rw [List.getLast?_append_of_ne_nil sep hne]
      exact ih

/-- The shapes `parse` can hand the formatter as a root: never a bare
comment, and a number node always carries a canonicalised numeric text. -/
def rootOk : Ast → Prop
  | Ast.jcomment _ _ => False
  | Ast.jnumber v _ => ∃ s, v = canonNumber s
  | _ => True

/-- What `parseValue` can produce: its number nodes are canonicalised and
its comment nodes only arise from a leading comment token. -/
theorem parseValueA_out (fuel : Nat) (ts : List Token) (a : Ast) (r : List Token)
    (h : parseValueA fuel ts = Except.ok (a, r)) :
    (∀ v raw, a = Ast.jnumber v raw → v = canonNumber raw) ∧
    (∀ text bl, a = Ast.jcomment text bl →
      ∃ t rest, ts = t :: rest ∧ t.type = TokenType.COMMENT) := by
  cases fuel with
  | zero => exact absurd h (by simp [parseValueA])
  | succ f =>
    cases ts with
    | nil => exact absurd h (by simp [parseValueA])
    | cons t rest =>
      cases htt : t.type with
      | LBRACE =>
        simp only [parseValueA, htt] at h
        cases hloop : parseObjLoopA (parseValueA f) f rest with
        | error e => rw [hloop] at h; exact absurd h (by simp)
        | ok p =>
          obtain ⟨es, r1⟩ := p
          rw [hloop] at h
          simp only at h
          injection h with hpair
          injection hpair with h1 h2
          constructor
          · intro v raw hv; rw [← h1] at hv; exact Ast.noConfusion hv
          · intro text bl hv; rw [← h1] at hv; exact Ast.noConfusion hv
      | LBRACKET =>
        simp only [parseValueA, htt] at h
        cases hloop : parseArrLoopA (parseValueA f) f rest with
        | error e => rw [hloop] at h; exact absurd h (by simp)
        | ok p =>
          obtain ⟨cs, r1⟩ := p
          rw [hloop] at h
          simp only at h
          injection h with hpair
          injection hpair with h1 h2
          constructor
          · intro v raw hv; rw [← h1] at hv; exact Ast.noConfusion hv
          · intro text bl hv; rw [← h1] at hv; exact Ast.noConfusion hv
      | STRING =>
        simp only [parseValueA, htt] at h
        cases hdec : jsonDecodeString t.value with
        | none => rw [hdec] at h; exact absurd h (by simp)
        | some v =>
          rw [hdec] at h
          simp only at h
          injection h with hpair
          injection hpair with h1 h2
          constructor
          · intro v1 raw hv; rw [← h1] at hv; exact Ast.noConfusion hv
          · intro text bl hv; rw [← h1] at hv; exact Ast.noConfusion hv
      | NUMBER =>
        simp only [parseValueA, htt] at h
        injection h with hpair
        injection hpair with h1 h2
        constructor
        · intro v raw hv
          rw [← h1] at hv
          injection hv with hv1 hv2
          rw [← hv1, ← hv2]
        · intro text bl hv; rw [← h1] at hv; exact Ast.noConfusion hv
      | BOOLEAN =>
        simp only [parseValueA, htt] at h
        injection h with hpair
        injection hpair with h1 h2
        constructor
        · intro v raw hv; rw [← h1] at hv; exact Ast.noConfusion hv
        · intro text bl hv; rw [← h1] at hv; exact Ast.noConfusion hv
      | NULL =>
        simp only [parseValueA, htt] at h
        injection h with hpair
        injection hpair with h1 h2
        constructor
        · intro v raw hv; rw [← h1] at hv; exact Ast.noConfusion hv
        · intro text bl hv; rw [← h1] at hv; exact Ast.noConfusion hv
      | COMMENT =>
        simp only [parseValueA, htt] at h
        injection h with hpair
        injection hpair with h1 h2
        constructor
        · intro v raw hv; rw [← h1] at hv; exact Ast.noConfusion hv
        · intro text bl hv; exact ⟨t, rest, rfl, htt⟩
      | RBRACE => simp only [parseValueA, htt] at h; exact absurd h (by simp)
      | RBRACKET => simp only [parseValueA, htt] at h; exact absurd h (by simp)
      | COLON => simp only [parseValueA, htt] at h; exact absurd h (by simp)
      | COMMA => simp only [parseValueA, htt] at h; exact absurd h (by simp)
      | WHITESPACE => simp only [parseValueA, htt] at h; exact absurd h (by simp)

/-- The head of a `dropWhile` result falsifies the predicate. -/
theorem dropWhile_head_false {α : Type} (p : α → Bool) :
    ∀ (l : List α) (t : α) (rest : List α), l.dropWhile p = t :: rest → p t = false := by
  intro l
  induction l with
  | nil => intro t rest h; exact absurd h (by simp)
  | cons a l ih =>
    intro t rest h
    cases hpa : p a with
    | true =>
      rw [List.dropWhile_cons, if_pos hpa] at h
      exact ih t rest h
    | false =>
      rw [List.dropWhile_cons, if_neg (by rw [hpa]; exact Bool.false_ne_true)] at h
      injection h with h1 _
      rw [← h1]
      exact hpa

/-- The root handed over by `parse` is well shaped. -/
theorem parseRoot_shape (ts : List Token) (a : Ast) (r : List Token)
    (h : parseRoot ts = Except.ok (a, r)) : rootOk a := by
  unfold parseRoot at h
  simp only at h
  cases hrest : ts.dropWhile (fun t => t.type = TokenType.COMMENT) with
  | nil =>
    rw [hrest] at h
    simp only at h
    injection h with hpair
    injection hpair with h1 h2
    rw [← h1]
    trivial
  | cons t rest1 =>
    rw [hrest] at h
    simp only at h
    cases hpv : parseValueA ((t :: rest1).length + 1) (t :: rest1) with
    | error e => rw [hpv] at h; exact absurd h (by simp)
    | ok p =>
      obtain ⟨root, r1⟩ := p
      rw [hpv] at h
      simp only at h
      have hout := parseValueA_out _ _ _ _ hpv
      cases root with
      | jobject es =>
        injection h with hpair
        injection hpair with h1 h2
        rw [← h1]
        trivial
      | jarray cs =>
        injection h with hpair
        injection hpair with h1 h2
        rw [← h1]
        trivial
      | jstring v raw =>
        injection h with hpair
        injection hpair with h1 h2
        rw [← h1]
        trivial
      | jnumber v raw =>
        injection h with hpair
        injection hpair with h1 h2
        rw [← h1]
        exact ⟨raw, hout.1 v raw rfl⟩
      | jbool v raw =>
        injection h with hpair
        injection hpair with h1 h2
        rw [← h1]
        trivial
      | jnull raw =>
        injection h with hpair
        injection hpair with h1 h2
        rw [← h1]
        trivial
      | jcomment text bl =>
        obtain ⟨t2, rest2, hcons, hct⟩ := hout.2 text bl rfl
        injection hcons with hc1 _
        rw [← hc1] at hct
        have := dropWhile_head_false (fun t => decide (t.type = TokenType.COMMENT)) ts t rest1 hrest
        simp [hct] at this

/-- `parse` only returns well-shaped roots. -/
theorem parse_shape (ts : List Token) (a : Ast) (h : parse ts = Except.ok a) :
    rootOk a := by
  unfold parse at h
  cases hr : parseRoot ts with
  | error e => rw [hr] at h; exact absurd h (by simp)
  | ok p =>
    obtain ⟨a1, r1⟩ := p
    rw [hr] at h
    simp only at h
    injection h with h1
    rw [← h1]
    exact parseRoot_shape ts a1 r1 hr

/-- A well-shaped root renders to a nonempty string whose last character is
not a line terminator. -/
theorem formatNodeF_root_last (cfg : MaaFormatConfig) (fuel : Nat) (a : Ast)
    (level : Nat) (key : List Char) (h : rootOk a) :
    ∃ c, (formatNodeF cfg (fuel + 1) a level key false).getLast? = some c ∧
      c ≠ '\n' ∧ c ≠ '\r' := by
  cases a with
  | jstring v raw =>
    refine ⟨'"', ?_, by decide, by decide⟩
    exact List.getLast?_concat _
  | jnumber v raw =>
    obtain ⟨s, rfl⟩ := h
    obtain ⟨hchars, hnn⟩ := canonNumber_chars s
    obtain ⟨c, hc⟩ := getLast?_some_of_ne_nil _ hnn
    have hmem : c ∈ canonNumber s := List.mem_of_mem_getLast? hc
    exact ⟨c, hc, isNumChar_not_term c (hchars c hmem)⟩
  | jbool v raw =>
    cases v with
    | true => exact ⟨'e', rfl, by decide, by decide⟩
    | false => exact ⟨'e', rfl, by decide, by decide⟩
  | jnull raw => exact ⟨'l', rfl, by decide, by decide⟩
  | jcomment text bl => exact h.elim
  | jarray cs =>
    rw [formatNodeF_array_eq]
    refine ⟨']', ?_, by decide, by decide⟩
    split
    · exact List.getLast?_concat _
    · rw [intercalate_getLast _ _ _ (by simp)]
      exact List.getLast?_concat _
  | jobject es =>
    rw [formatNodeF_object_eq]
    refine ⟨'}', ?_, by decide, by decide⟩
    split
    · exact List.getLast?_concat _
    · rw [intercalate_getLast _ _ _ (by simp)]
      exact List.getLast?_concat _

/-- The newline rewrite keeps a non-terminator last character. -/
theorem replaceNL_getLast (nl : List Char) (s : List Char)
    (h : ∀ c, s.getLast? = some c → c ≠ '\n' ∧ c ≠ '\r') :
    (replaceNL nl s).getLast? = s.getLast? := by
  induction s using replaceNL.induct nl with
  | case1 => rfl
  | case2 rest ih =>
    cases rest with
    | nil => exact absurd rfl (h '\n' rfl).1
    | cons x xs =>
      have hlast : ('\r' :: '\n' :: (x :: xs)).getLast? = (x :: xs).getLast? := by
        rw [getLast?_cons_ne _ _ (by simp), getLast?_cons_ne _ _ (by simp)]
      have hih := ih (fun d hd => h d (by rw [hlast]; exact hd))
      obtain ⟨y, hy⟩ := getLast?_some_of_ne_nil (x :: xs) (by simp)
      have hnn : replaceNL nl (x :: xs) ≠ [] := ne_nil_of_getLast _ y (by rw [hih, hy])
      rw [show replaceNL nl ('\r' :: '\n' :: (x :: xs)) = nl ++ replaceNL nl (x :: xs) from rfl]
      rw [List.getLast?_append_of_ne_nil nl hnn, hlast]
      exact hih
  | case3 rest ih =>
    cases rest with
    | nil => exact absurd rfl (h '\n' rfl).1
    | cons x xs =>
      have hlast : ('\n' :: (x :: xs)).getLast? = (x :: xs).getLast? := by
        rw [getLast?_cons_ne _ _ (by simp)]
      have hih := ih (fun d hd => h d (by rw [hlast]; exact hd))
      obtain ⟨y, hy⟩ := getLast?_some_of_ne_nil (x :: xs) (by simp)
      have hnn : replaceNL nl (x :: xs) ≠ [] := ne_nil_of_getLast _ y (by rw [hih, hy])
      rw [show replaceNL nl ('\n' :: (x :: xs)) = nl ++ replaceNL nl (x :: xs) from rfl]
      rw [List.getLast?_append_of_ne_nil nl hnn, hlast]
      exact hih
  | case4 c rest h1 h2 ih =>
    have hc : c ≠ '\n' := fun hh => h2 hh
    have hpair : ¬(c = '\r' ∧ rest.head? = some '\n') := by
      rintro ⟨rfl, hhd⟩
      cases rest with
      | nil => exact Option.noConfusion hhd
      | cons x xs =>
        injection hhd with hhd
        exact h1 xs rfl (by rw [hhd])
    rw [replaceNL_cons_generic nl c rest hc hpair]
    cases rest with
    | nil => rfl
    | cons x xs =>
      have hlast : (c :: (x :: xs)).getLast? = (x :: xs).getLast? :=
        getLast?_cons_ne _ _ (by simp)
      have hih := ih (fun d hd => h d (by rw [hlast]; exact hd))
      obtain ⟨y, hy⟩ := getLast?_some_of_ne_nil (x :: xs) (by simp)
      have hnn : replaceNL nl (x :: xs) ≠ [] := ne_nil_of_getLast _ y (by rw [hih, hy])
      rw [hlast, getLast?_cons_ne c _ hnn]
      exact hih

/-- Appending a line feed to a string whose last character is not a
carriage return makes the rewrite emit exactly one configured terminator at
the end. -/
theorem replaceNL_append_nl (nl : List Char) (s : List Char)
    (h : s.getLast? ≠ some '\r') :
    replaceNL nl (s ++ ['\n']) = replaceNL nl s ++ nl := by
  induction s using replaceNL.induct nl with
  | case1 =>
    rw [show ([] : List Char) ++ ['\n'] = ['\n'] from rfl]
    rw [show replaceNL nl ['\n'] = nl ++ replaceNL nl [] from rfl]
    rw [show replaceNL nl ([] : List Char) = [] from rfl]
    simp
  | case2 rest ih =>
    have hr : rest.getLast? ≠ some '\r' := by
      cases rest with
      | nil => simp
      | cons x xs =>
        intro hz
        exact h (by rw [getLast?_cons_ne _ _ (by simp), getLast?_cons_ne _ _ (by simp)]; exact hz)
    have hih := ih hr
    rw [show ('\r' :: '\n' :: rest) ++ ['\n'] = '\r' :: '\n' :: (rest ++ ['\n']) from rfl]
    rw [show replaceNL nl ('\r' :: '\n' :: (rest ++ ['\n'])) =
      nl ++ replaceNL nl (rest ++ ['\n']) from rfl]
    rw [show replaceNL nl ('\r' :: '\n' :: rest) = nl ++ replaceNL nl rest from rfl]
    rw [hih, List.append_assoc]
  | case3 rest ih =>
    have hr : rest.getLast? ≠ some '\r' := by
      cases rest with
      | nil => simp
      | cons x xs =>
        intro hz
        exact h (by rw [getLast?_cons_ne _ _ (by simp)]; exact hz)
    have hih := ih hr
    rw [show ('\n' :: rest) ++ ['\n'] = '\n' :: (rest ++ ['\n']) from rfl]
    rw [show replaceNL nl ('\n' :: (rest ++ ['\n'])) =
      nl ++ replaceNL nl (rest ++ ['\n']) from rfl]
    rw [show replaceNL nl ('\n' :: rest) = nl ++ replaceNL nl rest from rfl]
    rw [hih, List.append_assoc]
  | case4 c rest h1 h2 ih =>
    have hc : c ≠ '\n' := fun hh => h2 hh
    have hcr_pair : ¬(c = '\r' ∧ rest.head? = some '\n') := by
      rintro ⟨rfl, hhd⟩
      cases rest with
      | nil => exact Option.noConfusion hhd
      | cons x xs =>
        injection hhd with hhd
        exact h1 xs rfl (by rw [hhd])
    have hr : rest.getLast? ≠ some '\r' := by
      cases rest with
      | nil => simp
      | cons x xs =>
        intro hz
        exact h (by rw [getLast?_cons_ne _ _ (by simp)]; exact hz)
    have hih := ih hr
    have hpair2 : ¬(c = '\r' ∧ (rest ++ ['\n']).head? = some '\n') := by
      rintro ⟨rfl, hhd⟩
      cases rest with
      | nil => exact h rfl
      | cons x xs =>
        rw [List.cons_append, List.head?_cons] at hhd
        injection hhd with hhd
        exact h1 xs rfl (by rw [hhd])
    rw [List.cons_append, replaceNL_cons_generic nl c (rest ++ ['\n']) hc hpair2]
    rw [replaceNL_cons_generic nl c rest hc hcr_pair]
    rw [hih, List.cons_append]

/-- The renderer never reads `insert_final_newline`: flipping it leaves
`formatNode` unchanged. -/
theorem formatNodeF_ifn (cfg : MaaFormatConfig) (b : Bool) :
    ∀ (fuel : Nat) (node : Ast) (level : Nat) (key : List Char) (inl : Bool),
      formatNodeF {cfg with insert_final_newline := b} fuel node level key inl =
        formatNodeF cfg fuel node level key inl := by
  intro fuel
  induction fuel with
  | zero => intro node level key inl; rfl
  | succ f ih =>
    intro node level key inl
    cases node with
    | jstring v raw => rfl
    | jnumber v raw => rfl
    | jbool v raw => rfl
    | jnull raw => rfl
    | jcomment text bl => rfl
    | jarray cs =>
      simp only [formatNodeF, ih,
        show indentStr {cfg with insert_final_newline := b} = indentStr cfg from rfl]
    | jobject es =>
      simp only [formatNodeF, ih,
        show indentStr {cfg with insert_final_newline := b} = indentStr cfg from rfl]

/-- **C7.** Newline policy: on every input on which `format` succeeds, the
output with `insert_final_newline = true` is exactly the output with
`insert_final_newline = false` followed by one configured line terminator
(so the two differ only in the trailing terminator: `true` ends with exactly
one, `false` with none — its last character is never a line terminator);
and with `newline = CRLF` every line feed in either output is the second
half of a `\r\n` pair. -/
theorem claim_C7_newline_policy (cfg : MaaFormatConfig) (x outT outF : List Char)
    (hT : format {cfg with insert_final_newline := true} x = Except.ok outT)
    (hF : format {cfg with insert_final_newline := false} x = Except.ok outF) :
    outT = outF ++ nlOf cfg ∧
    (∀ c, outF.getLast? = some c → c ≠ '\n' ∧ c ≠ '\r') ∧
    (cfg.newline = NewlineStyle.CRLF → crlfOnly outT = true ∧ crlfOnly outF = true) := by
  unfold format at hT hF
  cases htk : tokenize x with
  | error e => rw [htk] at hT; exact absurd hT (by simp)
  | ok ts =>
    rw [htk] at hT hF
    simp only at hT hF
    cases hp : parse ts with
    | error e => rw [hp] at hT; exact absurd hT (by simp)
    | ok ast =>
      rw [hp] at hT hF
      simp only at hT hF
      simp only [reduceIte] at hT hF
      rw [formatNodeF_ifn cfg true] at hT
      rw [formatNodeF_ifn cfg false] at hF
      rw [show nlOf {cfg with insert_final_newline := true} = nlOf cfg from rfl] at hT
      rw [show nlOf {cfg with insert_final_newline := false} = nlOf cfg from rfl] at hF
      obtain ⟨c0, hc0, hc0n, hc0r⟩ :=
        formatNodeF_root_last cfg ts.length ast 0 [] (parse_shape ts ast hp)
      have hne : formatNodeF cfg (ts.length + 1) ast 0 [] false ≠ [] :=
        ne_nil_of_getLast _ c0 hc0
      have hends : ¬ endsWithNL (formatNodeF cfg (ts.length + 1) ast 0 [] false) = true := by
        unfold endsWithNL
        rw [hc0]
        simp [hc0n]
      rw [if_pos ⟨hne, hends⟩] at hT
      rw [if_neg Bool.false_ne_true] at hF
      have hcondF : ¬(formatNodeF cfg (ts.length + 1) ast 0 [] false ≠ [] ∧
          endsWithNL (formatNodeF cfg (ts.length + 1) ast 0 [] false) = true) :=
        fun hh => hends hh.2
      rw [if_neg hcondF] at hF
      injection hT with hT1
      injection hF with hF1
      have hall : ∀ c, (formatNodeF cfg (ts.length + 1) ast 0 [] false).getLast? = some c →
          c ≠ '\n' ∧ c ≠ '\r' := by
        intro c hc
        rw [hc0] at hc
        injection hc with hc
        rw [← hc]
        exact ⟨hc0n, hc0r⟩
      have hcr : (formatNodeF cfg (ts.length + 1) ast 0 [] false).getLast? ≠ some '\r' := by
        rw [hc0]
        intro hz
        injection hz with hz
        exact hc0r hz
      refine ⟨?_, ?_, ?_⟩
      · rw [← hT1, ← hF1, replaceNL_append_nl _ _ hcr]
      · intro c hc
        rw [← hF1, replaceNL_getLast _ _ hall] at hc
        exact hall c hc
      · intro hCR
        have hnl : nlOf cfg = ['\r', '\n'] := by unfold nlOf; rw [hCR]
        constructor
        · rw [← hT1, hnl]; exact crlfOnly_replaceNL _
        · rw [← hF1, hnl]; exact crlfOnly_replaceNL _

/-- Witness for C7: on the input `1` with the default configuration the
`true` output is `1` plus one newline, the `false` output `1` ends in a
non-terminator, and the CRLF guarantee holds vacuously (the default style
is LF). -/
theorem claim_C7_witness :
    "1\n".toList = "1".toList ++ nlOf DEFAULT_CONFIG ∧
    (∀ c, "1".toList.getLast? = some c → c ≠ '\n' ∧ c ≠ '\r') ∧
    (DEFAULT_CONFIG.newline = NewlineStyle.CRLF →
      crlfOnly "1\n".toList = true ∧ crlfOnly "1".toList = true) :=
  claim_C7_newline_policy DEFAULT_CONFIG "1".toList "1\n".toList "1".toList
    (by rfl) (by rfl)

-- ===========================================================================
-- C2: comment conservation
-- ===========================================================================

/-- The comment texts of a token stream, in order. -/
def tokComments (ts : List Token) : List (List Char) :=
  (ts.filter (fun t => t.type = TokenType.COMMENT)).map Token.value

mutual
/-- The comment texts of a parsed value, in preorder. -/
def astComments : Ast → List (List Char)
  | Ast.jcomment text _ => [text]
  | Ast.jarray cs => astCommentsList cs
  | Ast.jobject es => entryCommentsList es
  | Ast.jstring _ _ => []
  | Ast.jnumber _ _ => []
  | Ast.jbool _ _ => []
  | Ast.jnull _ => []
/-- Comment texts of a list of array children. -/
def astCommentsList : List Ast → List (List Char)
  | [] => []
  | a :: rest => astComments a ++ astCommentsList rest
/-- Comment texts of one object entry. -/
def entryComments : ObjEntry → List (List Char)
  | ObjEntry.centry text _ => [text]
  | ObjEntry.pentry _ v => astComments v
/-- Comment texts of a list of object entries. -/
def entryCommentsList : List ObjEntry → List (List Char)
  | [] => []
  | e :: rest => entryComments e ++ entryCommentsList rest
end

theorem tokComments_cons_comment (t : Token) (ts : List Token)
    (h : t.type = TokenType.COMMENT) :
    tokComments (t :: ts) = t.value :: tokComments ts := by
  simp [tokComments, List.filter_cons, h]

theorem tokComments_cons_other (t : Token) (ts : List Token)
    (h : ¬ t.type = TokenType.COMMENT) :
    tokComments (t :: ts) = tokComments ts := by
  simp [tokComments, List.filter_cons, h]

theorem tokComments_append (a b : List Token) :
    tokComments (a ++ b) = tokComments a ++ tokComments b := by
  simp [tokComments]

theorem tokComments_all_comment (ts : List Token)
    (h : ∀ t ∈ ts, t.type = TokenType.COMMENT) :
    tokComments ts = ts.map Token.value := by
  induction ts with
  | nil => rfl
  | cons t rest ih =>
    rw [tokComments_cons_comment t rest (h t (by simp)), List.map_cons,
      ih (fun u hu => h u (by simp [hu]))]

theorem entryCommentsList_append (l1 l2 : List ObjEntry) :
    entryCommentsList (l1 ++ l2) = entryCommentsList l1 ++ entryCommentsList l2 := by
  induction l1 with
  | nil => rfl
  | cons e l ih =>
    rw [List.cons_append,
      show entryCommentsList (e :: (l ++ l2)) = entryComments e ++ entryCommentsList (l ++ l2)
        from rfl,
      ih,
      show entryCommentsList (e :: l) = entryComments e ++ entryCommentsList l from rfl,
      List.append_assoc]

theorem entryCommentsList_map_centry (cs : List Token) :
    entryCommentsList (cs.map (fun tk => ObjEntry.centry tk.value (isBlockTok tk.value))) =
      cs.map Token.value := by
  induction cs with
  | nil => rfl
  | cons t rest ih =>
    rw [List.map_cons, List.map_cons,
      show entryCommentsList (ObjEntry.centry t.value (isBlockTok t.value) ::
        List.map (fun tk => ObjEntry.centry tk.value (isBlockTok tk.value)) rest) =
        [t.value] ++ entryCommentsList
          (List.map (fun tk => ObjEntry.centry tk.value (isBlockTok tk.value)) rest) from rfl,
      ih]
    rfl

theorem astCommentsList_map_comment (cs : List Token) :
    astCommentsList (cs.map (fun tk => Ast.jcomment tk.value (isBlockTok tk.value))) =
      cs.map Token.value := by
  induction cs with
  | nil => rfl
  | cons t rest ih =>
    rw [List.map_cons, List.map_cons,
      show astCommentsList (Ast.jcomment t.value (isBlockTok t.value) ::
        List.map (fun tk => Ast.jcomment tk.value (isBlockTok tk.value)) rest) =
        [t.value] ++ astCommentsList
          (List.map (fun tk => Ast.jcomment tk.value (isBlockTok tk.value)) rest) from rfl,
      ih]
    rfl


/-- Every token kept by the comment `takeWhile` is a comment. -/
theorem takeWhile_comment_all (l : List Token) :
    ∀ t ∈ l.takeWhile (fun tk => tk.type = TokenType.COMMENT), t.type = TokenType.COMMENT := by
  intro t ht
  have hb := List.mem_takeWhile_imp ht
  exact of_decide_eq_true hb

/-- The object loop consumes a prefix whose comment tokens become exactly
the comment texts of the produced entries, in order. -/
theorem parseObjLoopA_comments (pv : List Token → Except String (Ast × List Token))
    (hpv : ∀ ts a r, pv ts = Except.ok (a, r) →
      ∃ pre, ts = pre ++ r ∧ astComments a = tokComments pre) :
    ∀ (fuel : Nat) (ts : List Token) (es : List ObjEntry) (r : List Token),
      parseObjLoopA pv fuel ts = Except.ok (es, r) →
      ∃ pre, ts = pre ++ r ∧ entryCommentsList es = tokComments pre := by
  intro fuel
  induction fuel with
  | zero => intro ts es r h; exact absurd h (by simp [parseObjLoopA])
  | succ f ih =>
    intro ts es r h
    cases ts with
    | nil => exact absurd h (by simp [parseObjLoopA])
    | cons t rest =>
      cases htt : t.type with
      | RBRACE =>
        simp only [parseObjLoopA, htt] at h
        injection h with hpair
        injection hpair with h1 h2
        refine ⟨[t], by rw [← h2]; rfl, ?_⟩
        rw [← h1, tokComments_cons_other t [] (by rw [htt]; decide)]
        rfl
      | COMMENT =>
        simp only [parseObjLoopA, htt] at h
        cases hrec : parseObjLoopA pv f rest with
        | error e => rw [hrec] at h; exact absurd h (by simp)
        | ok p =>
          obtain ⟨es1, r1⟩ := p
          rw [hrec] at h
          simp only at h
          injection h with hpair
          injection hpair with h1 h2
          obtain ⟨pre, hps, hcs⟩ := ih rest es1 r1 hrec
          refine ⟨t :: pre, by rw [hps, ← h2]; rfl, ?_⟩
          rw [← h1, tokComments_cons_comment t pre htt]
          rw [show entryCommentsList (ObjEntry.centry t.value (isBlockTok t.value) :: es1) =
            t.value :: entryCommentsList es1 from rfl, hcs]
      | COMMA =>
        simp only [parseObjLoopA, htt] at h
        obtain ⟨pre, hps, hcs⟩ := ih rest es r h
        refine ⟨t :: pre, by rw [hps]; rfl, ?_⟩
        rw [tokComments_cons_other t pre (by rw [htt]; decide), hcs]
      | STRING =>
        simp only [parseObjLoopA, htt] at h
        cases hdec : jsonDecodeString t.value with
        | none => rw [hdec] at h; exact absurd h (by simp)
        | some key =>
          rw [hdec] at h
          simp only at h
          cases hr1 : rest.dropWhile (fun tk => tk.type = TokenType.COMMENT) with
          | nil => rw [hr1] at h; exact absurd h (by simp)
          | cons c rest2 =>
            rw [hr1] at h
            simp only at h
            by_cases hcol : c.type = TokenType.COLON
            · rw [if_pos hcol] at h
              cases hpvr : pv (rest2.dropWhile (fun tk => tk.type = TokenType.COMMENT)) with
              | error e => rw [hpvr] at h; exact absurd h (by simp)
              | ok p =>
                obtain ⟨v, r4⟩ := p
                rw [hpvr] at h
                simp only at h
                cases hrec : parseObjLoopA pv f r4 with
                | error e => rw [hrec] at h; exact absurd h (by simp)
                | ok q =>
                  obtain ⟨es1, r5⟩ := q
                  rw [hrec] at h
                  simp only at h
                  injection h with hpair
                  injection hpair with h1 h2
                  obtain ⟨preV, hpsV, hcsV⟩ := hpv _ v r4 hpvr
                  obtain ⟨preE, hpsE, hcsE⟩ := ih r4 es1 r5 hrec
                  refine ⟨t :: (rest.takeWhile (fun tk => tk.type = TokenType.COMMENT) ++
                    (c :: (rest2.takeWhile (fun tk => tk.type = TokenType.COMMENT) ++
                      (preV ++ preE)))), ?_, ?_⟩
                  · rw [← h2]
                    rw [List.cons_append]
                    rw [List.append_assoc]
                    rw [List.cons_append]
                    rw [List.append_assoc]
                    rw [List.append_assoc]
                    rw [← hpsE, ← hpsV]
                    rw [show c :: (rest2.takeWhile (fun tk => tk.type = TokenType.COMMENT) ++
                      rest2.dropWhile (fun tk => tk.type = TokenType.COMMENT)) =
                      c :: rest2 from by rw [List.takeWhile_append_dropWhile]]
                    rw [← hr1, List.takeWhile_append_dropWhile]
                  · rw [← h1]
                    rw [entryCommentsList_append]
                    rw [entryCommentsList_map_centry]
                    rw [show entryCommentsList (ObjEntry.pentry key v :: es1) =
                      astComments v ++ entryCommentsList es1 from rfl]
                    rw [tokComments_cons_other t _ (by rw [htt]; decide)]
                    rw [tokComments_append]
                    rw [tokComments_cons_other c _ (by rw [hcol]; decide)]
                    rw [tokComments_append, tokComments_append]
                    rw [tokComments_all_comment _ (takeWhile_comment_all rest)]
                    rw [tokComments_all_comment _ (takeWhile_comment_all rest2)]
                    rw [List.map_append, hcsV, hcsE, List.append_assoc]
            · rw [if_neg hcol] at h
              exact absurd h (by simp)
      | LBRACE => simp only [parseObjLoopA, htt] at h; exact absurd h (by simp)
      | LBRACKET => simp only [parseObjLoopA, htt] at h; exact absurd h (by simp)
      | RBRACKET => simp only [parseObjLoopA, htt] at h; exact absurd h (by simp)
      | COLON => simp only [parseObjLoopA, htt] at h; exact absurd h (by simp)
      | NUMBER => simp only [parseObjLoopA, htt] at h; exact absurd h (by simp)
      | BOOLEAN => simp only [parseObjLoopA, htt] at h; exact absurd h (by simp)
      | NULL => simp only [parseObjLoopA, htt] at h; exact absurd h (by simp)
      | WHITESPACE => simp only [parseObjLoopA, htt] at h; exact absurd h (by simp)

/-- The array loop consumes a prefix whose comment tokens become exactly
the comment texts of the produced children, in order. -/
theorem parseArrLoopA_comments (pv : List Token → Except String (Ast × List Token))
    (hpv : ∀ ts a r, pv ts = Except.ok (a, r) →
      ∃ pre, ts = pre ++ r ∧ astComments a = tokComments pre) :
    ∀ (fuel : Nat) (ts : List Token) (cs : List Ast) (r : List Token),
      parseArrLoopA pv fuel ts = Except.ok (cs, r) →
      ∃ pre, ts = pre ++ r ∧ astCommentsList cs = tokComments pre := by
  intro fuel
  induction fuel with
  | zero => intro ts cs r h; exact absurd h (by simp [parseArrLoopA])
  | succ f ih =>
    intro ts cs r h
    cases ts with
    | nil => exact absurd h (by simp [parseArrLoopA])
    | cons t rest =>
      by_cases hrb : t.type = TokenType.RBRACKET
      · simp only [parseArrLoopA, hrb] at h
        injection h with hpair
        injection hpair with h1 h2
        refine ⟨[t], by rw [← h2]; rfl, ?_⟩
        rw [← h1, tokComments_cons_other t [] (by rw [hrb]; decide)]
        rfl
      · by_cases hcm : t.type = TokenType.COMMENT
        · simp only [parseArrLoopA, hcm] at h
          cases hrec : parseArrLoopA pv f rest with
          | error e => rw [hrec] at h; exact absurd h (by simp)
          | ok p =>
            obtain ⟨cs1, r1⟩ := p
            rw [hrec] at h
            simp only at h
            injection h with hpair
            injection hpair with h1 h2
            obtain ⟨pre, hps, hcs⟩ := ih rest cs1 r1 hrec
            refine ⟨t :: pre, by rw [hps, ← h2]; rfl, ?_⟩
            rw [← h1, tokComments_cons_comment t pre hcm]
            rw [show astCommentsList (Ast.jcomment t.value (isBlockTok t.value) :: cs1) =
              t.value :: astCommentsList cs1 from rfl, hcs]
        · by_cases hco : t.type = TokenType.COMMA
          · simp only [parseArrLoopA, hco] at h
            obtain ⟨pre, hps, hcs⟩ := ih rest cs r h
            refine ⟨t :: pre, by rw [hps]; rfl, ?_⟩
            rw [tokComments_cons_other t pre (by rw [hco]; decide), hcs]
          · have hred : parseArrLoopA pv (f + 1) (t :: rest) =
              (match pv (t :: rest) with
                | Except.error e => Except.error e
                | Except.ok (v, r1) =>
                  match parseArrLoopA pv f r1 with
                  | Except.error e => Except.error e
                  | Except.ok (cs, r2) => Except.ok (v :: cs, r2)) := by
              cases httv : t.type
              case RBRACKET => exact absurd httv hrb
              case COMMENT => exact absurd httv hcm
              case COMMA => exact absurd httv hco
              all_goals simp only [parseArrLoopA, httv]
            rw [hred] at h
            cases hpvr : pv (t :: rest) with
            | error e => rw [hpvr] at h; exact absurd h (by simp)
            | ok p =>
              obtain ⟨v, r1⟩ := p
              rw [hpvr] at h
              simp only at h
              cases hrec : parseArrLoopA pv f r1 with
              | error e => rw [hrec] at h; exact absurd h (by simp)
              | ok q =>
                obtain ⟨cs1, r2⟩ := q
                rw [hrec] at h
                simp only at h
                injection h with hpair
                injection hpair with h1 h2
                obtain ⟨preV, hpsV, hcsV⟩ := hpv _ v r1 hpvr
                obtain ⟨preL, hpsL, hcsL⟩ := ih r1 cs1 r2 hrec
                refine ⟨preV ++ preL, ?_, ?_⟩
                · rw [← h2, List.append_assoc, ← hpsL, ← hpsV]
                · rw [← h1]
                  rw [show astCommentsList (v :: cs1) =
                    astComments v ++ astCommentsList cs1 from rfl]
                  rw [tokComments_append, hcsV, hcsL]

/-- `parseValue` consumes a prefix whose comment tokens are exactly the
comment texts of the produced value, in order. -/
theorem parseValueA_comments :
    ∀ (fuel : Nat) (ts : List Token) (a : Ast) (r : List Token),
      parseValueA fuel ts = Except.ok (a, r) →
      ∃ pre, ts = pre ++ r ∧ astComments a = tokComments pre := by
  intro fuel
  induction fuel with
  | zero => intro ts a r h; exact absurd h (by simp [parseValueA])
  | succ f ih =>
    intro ts a r h
    cases ts with
    | nil => exact absurd h (by simp [parseValueA])
    | cons t rest =>
      cases htt : t.type with
      | LBRACE =>
        simp only [parseValueA, htt] at h
        cases hloop : parseObjLoopA (parseValueA f) f rest with
        | error e => rw [hloop] at h; exact absurd h (by simp)
        | ok p =>
          obtain ⟨es, r1⟩ := p
          rw [hloop] at h
          simp only at h
          injection h with hpair
          injection hpair with h1 h2
          obtain ⟨pre, hps, hcs⟩ := parseObjLoopA_comments (parseValueA f) ih f rest es r1 hloop
          refine ⟨t :: pre, by rw [hps, ← h2]; rfl, ?_⟩
          rw [← h1, tokComments_cons_other t pre (by rw [htt]; decide)]
          exact hcs
      | LBRACKET =>
        simp only [parseValueA, htt] at h
        cases hloop : parseArrLoopA (parseValueA f) f rest with
        | error e => rw [hloop] at h; exact absurd h (by simp)
        | ok p =>
          obtain ⟨cs, r1⟩ := p
          rw [hloop] at h
          simp only at h
          injection h with hpair
          injection hpair with h1 h2
          obtain ⟨pre, hps, hcs⟩ := parseArrLoopA_comments (parseValueA f) ih f rest cs r1 hloop
          refine ⟨t :: pre, by rw [hps, ← h2]; rfl, ?_⟩
          rw [← h1, tokComments_cons_other t pre (by rw [htt]; decide)]
          exact hcs
      | STRING =>
        simp only [parseValueA, htt] at h
        cases hdec : jsonDecodeString t.value with
        | none => rw [hdec] at h; exact absurd h (by simp)
        | some v =>
          rw [hdec] at h
          simp only at h
          injection h with hpair
          injection hpair with h1 h2
          refine ⟨[t], by rw [← h2]; rfl, ?_⟩
          rw [← h1, tokComments_cons_other t [] (by rw [htt]; decide)]
          rfl
      | NUMBER =>
        simp only [parseValueA, htt] at h
        injection h with hpair
        injection hpair with h1 h2
        refine ⟨[t], by rw [← h2]; rfl, ?_⟩
        rw [← h1, tokComments_cons_other t [] (by rw [htt]; decide)]
        rfl
      | BOOLEAN =>
        simp only [parseValueA, htt] at h
        injection h with hpair
        injection hpair with h1 h2
        refine ⟨[t], by rw [← h2]; rfl, ?_⟩
        rw [← h1, tokComments_cons_other t [] (by rw [htt]; decide)]
        rfl
      | NULL =>
        simp only [parseValueA, htt] at h
        injection h with hpair
        injection hpair with h1 h2
        refine ⟨[t], by rw [← h2]; rfl, ?_⟩
        rw [← h1, tokComments_cons_other t [] (by rw [htt]; decide)]
        rfl
      | COMMENT =>
        simp only [parseValueA, htt] at h
        injection h with hpair
        injection hpair with h1 h2
        refine ⟨[t], by rw [← h2]; rfl, ?_⟩
        rw [← h1, tokComments_cons_comment t [] htt]
        rfl
      | RBRACE => simp only [parseValueA, htt] at h; exact absurd h (by simp)
      | RBRACKET => simp only [parseValueA, htt] at h; exact absurd h (by simp)
      | COLON => simp only [parseValueA, htt] at h; exact absurd h (by simp)
      | COMMA => simp only [parseValueA, htt] at h; exact absurd h (by simp)
      | WHITESPACE => simp only [parseValueA, htt] at h; exact absurd h (by simp)

/-- On a fully consumed token stream whose root value is a container (the
comment-only document included), the AST carries exactly the input's comment
texts, in order. -/
theorem parseRoot_comments (ts : List Token) (ast : Ast)
    (h : parseRoot ts = Except.ok (ast, []))
    (hroot : (∃ es, ast = Ast.jobject es) ∨ (∃ cs, ast = Ast.jarray cs)) :
    astComments ast = tokComments ts := by
  unfold parseRoot at h
  simp only at h
  cases hrest : ts.dropWhile (fun t => t.type = TokenType.COMMENT) with
  | nil =>
    rw [hrest] at h
    simp only at h
    injection h with hpair
    injection hpair with h1 h2
    rw [← h1]
    rw [show astComments (Ast.jobject ((ts.takeWhile
        (fun t => t.type = TokenType.COMMENT)).map
        (fun t => ObjEntry.centry t.value (isBlockTok t.value)))) =
      entryCommentsList ((ts.takeWhile (fun t => t.type = TokenType.COMMENT)).map
        (fun t => ObjEntry.centry t.value (isBlockTok t.value))) from rfl]
    rw [entryCommentsList_map_centry]
    conv_rhs => rw [← List.takeWhile_append_dropWhile
      (p := fun t => decide (t.type = TokenType.COMMENT)) (l := ts)]
    rw [hrest, List.append_nil]
    rw [tokComments_all_comment _ (takeWhile_comment_all ts)]
  | cons t rest1 =>
    rw [hrest] at h
    simp only at h
    cases hpv : parseValueA ((t :: rest1).length + 1) (t :: rest1) with
    | error e => rw [hpv] at h; exact absurd h (by simp)
    | ok p =>
      obtain ⟨root, r1⟩ := p
      rw [hpv] at h
      simp only at h
      obtain ⟨pre, hps, hcs⟩ := parseValueA_comments _ _ _ _ hpv
      have hts : ts = ts.takeWhile (fun t => t.type = TokenType.COMMENT) ++ (t :: rest1) := by
        conv_lhs => rw [← List.takeWhile_append_dropWhile
          (p := fun t => decide (t.type = TokenType.COMMENT)) (l := ts)]
        rw [hrest]
      cases root with
      | jobject es =>
        injection h with hpair
        injection hpair with h1 h2
        rw [h2] at hps
        rw [List.append_nil] at hps
        rw [← h1]
        rw [show astComments (Ast.jobject ((ts.takeWhile
            (fun t => t.type = TokenType.COMMENT)).map
            (fun t => ObjEntry.centry t.value (isBlockTok t.value)) ++ es)) =
          entryCommentsList ((ts.takeWhile (fun t => t.type = TokenType.COMMENT)).map
            (fun t => ObjEntry.centry t.value (isBlockTok t.value)) ++ es) from rfl]
        rw [entryCommentsList_append, entryCommentsList_map_centry]
        rw [show entryCommentsList es = astComments (Ast.jobject es) from rfl, hcs]
        conv_rhs => rw [hts]
        rw [tokComments_append]
        rw [tokComments_all_comment _ (takeWhile_comment_all ts)]
        rw [hps]
      | jarray cs =>
        injection h with hpair
        injection hpair with h1 h2
        rw [h2] at hps
        rw [List.append_nil] at hps
        rw [← h1]
        rw [show astComments (Ast.jarray ((ts.takeWhile
            (fun t => t.type = TokenType.COMMENT)).map
            (fun t => Ast.jcomment t.value (isBlockTok t.value)) ++ cs)) =
          astCommentsList ((ts.takeWhile (fun t => t.type = TokenType.COMMENT)).map
            (fun t => Ast.jcomment t.value (isBlockTok t.value)) ++ cs) from rfl]
        rw [show astCommentsList ((ts.takeWhile (fun t => t.type = TokenType.COMMENT)).map
            (fun t => Ast.jcomment t.value (isBlockTok t.value)) ++ cs) =
          astCommentsList ((ts.takeWhile (fun t => t.type = TokenType.COMMENT)).map
            (fun t => Ast.jcomment t.value (isBlockTok t.value))) ++ astCommentsList cs from by
              induction (ts.takeWhile (fun t => t.type = TokenType.COMMENT)).map
                  (fun t => Ast.jcomment t.value (isBlockTok t.value)) with
              | nil => rfl
              | cons x xs ihx =>
                rw [List.cons_append,
                  show astCommentsList (x :: (xs ++ cs)) =
                    astComments x ++ astCommentsList (xs ++ cs) from rfl,
                  ihx,
                  show astCommentsList (x :: xs) = astComments x ++ astCommentsList xs from rfl,
                  List.append_assoc]]
        rw [astCommentsList_map_comment]
        rw [show astCommentsList cs = astComments (Ast.jarray cs) from rfl, hcs]
        conv_rhs => rw [hts]
        rw [tokComments_append]
        rw [tokComments_all_comment _ (takeWhile_comment_all ts)]
        rw [hps]
      | jstring v raw =>
        injection h with hpair
        injection hpair with h1 _
        rcases hroot with ⟨es, he⟩ | ⟨cs, he⟩ <;> rw [← h1] at he <;> exact Ast.noConfusion he
      | jnumber v raw =>
        injection h with hpair
        injection hpair with h1 _
        rcases hroot with ⟨es, he⟩ | ⟨cs, he⟩ <;> rw [← h1] at he <;> exact Ast.noConfusion he
      | jbool v raw =>
        injection h with hpair
        injection hpair with h1 _
        rcases hroot with ⟨es, he⟩ | ⟨cs, he⟩ <;> rw [← h1] at he <;> exact Ast.noConfusion he
      | jnull raw =>
        injection h with hpair
        injection hpair with h1 _
        rcases hroot with ⟨es, he⟩ | ⟨cs, he⟩ <;> rw [← h1] at he <;> exact Ast.noConfusion he
      | jcomment text bl =>
        injection h with hpair
        injection hpair with h1 _
        rcases hroot with ⟨es, he⟩ | ⟨cs, he⟩ <;> rw [← h1] at he <;> exact Ast.noConfusion he

/-- **C2 counterexample.** The input `// c\n1` tokenizes with comment
multiset `{ // c }` and parses successfully, but formats to `1`, whose
token stream has no comment at all: a comment preceding a scalar root is
dropped, so comment conservation fails on successfully parsed input. -/
theorem claim_C2_counterexample :
    (Maa.tokenize "// c\n1".toList).map tokComments =
      Except.ok ["// c".toList] ∧
    formatString DEFAULT_CONFIG "// c\n1" = Except.ok "1" ∧
    (Maa.tokenize "1".toList).map tokComments = Except.ok [] := by
  refine ⟨by rfl, by rfl, by rfl⟩

/-- **C2 (amended).** On a token stream that the parser consumes in full
and whose root value is an object or array (the comment-only document
included), the parsed tree carries exactly the input's comment texts in
input order; a container with a comment child is never inlined; and a
comment node in expanded position renders verbatim as its text. (When the
root value is a scalar, the leading comments are dropped — see the
counterexample.) -/
theorem claim_C2_comment_conservation :
    (∀ (x : List Char) (ts : List Token) (ast : Ast),
      Maa.tokenize x = Except.ok ts →
      parseRoot ts = Except.ok (ast, []) →
      ((∃ es, ast = Ast.jobject es) ∨ (∃ cs, ast = Ast.jarray cs)) →
      astComments ast = tokComments ts) ∧
    (∀ (cfg : MaaFormatConfig) (fuel : Nat) (key : List Char) (cs : List Ast),
      cs.any isCommentN = true → shouldInlineArray cfg fuel key cs = false) ∧
    (∀ (cfg : MaaFormatConfig) (fuel : Nat) (key : List Char) (es : List ObjEntry),
      es.any isCommentE = true → shouldInlineObject cfg fuel key es = false) ∧
    (∀ (cfg : MaaFormatConfig) (fuel level : Nat) (key : List Char)
      (text : List Char) (bl : Bool),
      formatNodeF cfg (fuel + 1) (Ast.jcomment text bl) level key false = text) := by
  refine ⟨?_, ?_, ?_, ?_⟩
  · intro x ts ast _ hp hroot
    exact parseRoot_comments ts ast hp hroot
  · intro cfg fuel key cs h
    cases hsi : shouldInlineArray cfg fuel key cs with
    | false => rfl
    | true =>
      obtain ⟨a, ha, hca⟩ := List.any_eq_true.mp h
      rcases (shouldInlineArray_iff cfg fuel key cs).mp hsi with hnil | ⟨hany, _⟩
      · rw [hnil] at ha
        exact absurd ha (List.not_mem_nil a)
      · have hx : cs.any (fun c => isCommentN c || isObjectN c || isArrayN c) = true :=
          List.any_eq_true.mpr ⟨a, ha, by rw [hca]; rfl⟩
        rw [hany] at hx
        exact Bool.noConfusion hx
  · intro cfg fuel key es h
    cases hsi : shouldInlineObject cfg fuel key es with
    | false => rfl
    | true =>
      obtain ⟨a, ha, hca⟩ := List.any_eq_true.mp h
      rcases (shouldInlineObject_iff cfg fuel key es).mp hsi with hnil | ⟨_, hany, _⟩
      · rw [hnil] at ha
        exact absurd ha (List.not_mem_nil a)
      · rw [h] at hany
        exact Bool.noConfusion hany
  · intro cfg fuel level key text bl
    rfl

/-- Witness for C2: the comment-only document `// c\n{}` parses to an
object holding the comment, whose comment list equals the token stream's;
a one-comment array and object are not inlined; and the comment renders
verbatim. -/
theorem claim_C2_witness :
    astComments (Ast.jobject [ObjEntry.centry "// c".toList false]) =
      tokComments [⟨TokenType.COMMENT, "// c".toList, 1⟩,
        ⟨TokenType.LBRACE, "\x7b".toList, 2⟩, ⟨TokenType.RBRACE, "\x7d".toList, 2⟩] ∧
    shouldInlineArray DEFAULT_CONFIG 1 [] [Ast.jcomment "// c".toList false] = false ∧
    shouldInlineObject DEFAULT_CONFIG 1 [] [ObjEntry.centry "// c".toList false] = false ∧
    formatNodeF DEFAULT_CONFIG 1 (Ast.jcomment "// c".toList false) 0 [] false = "// c".toList :=
  ⟨claim_C2_comment_conservation.1 "// c\n\x7b\x7d".toList
      [⟨TokenType.COMMENT, "// c".toList, 1⟩,
        ⟨TokenType.LBRACE, "\x7b".toList, 2⟩, ⟨TokenType.RBRACE, "\x7d".toList, 2⟩]
      (Ast.jobject [ObjEntry.centry "// c".toList false])
      (by rfl) (by rfl) (Or.inl ⟨_, rfl⟩),
   claim_C2_comment_conservation.2.1 DEFAULT_CONFIG 1 []
      [Ast.jcomment "// c".toList false] (by rfl),
   claim_C2_comment_conservation.2.2.1 DEFAULT_CONFIG 1 []
      [ObjEntry.centry "// c".toList false] (by rfl),
   claim_C2_comment_conservation.2.2.2 DEFAULT_CONFIG 0 0 [] "// c".toList false⟩

end Maa
